import Mathlib

/-!
# Collatz step counter with a bounded cache (collatz.c)

Shallow embedding of the cache of `collatz.c`.  The C program keeps its
entries in heap blocks linked by `next` and `previous` pointers, so the
embedding carries an explicit heap: block addresses are natural numbers, a
pointer is `Option Nat` (`none` is `NULL`), and every C statement that reads
or writes through a pointer becomes a `load` or `store` on the heap that fails
with a `Fault` when the pointer is `NULL` or refers to a freed block.
-/

namespace Collatz

/-- Pointer to a `CacheEntry`: `none` is `NULL`, `some a` is the block at address `a`. -/
abbrev Ptr := Option Nat

/-- Mirror of `struct CacheEntry` (collatz.c lines 9-14). -/
structure CacheEntry where
  number : Int
  steps : Int
  next : Ptr
  previous : Ptr
deriving DecidableEq, Repr

/-- Mirror of `struct Cache` (collatz.c lines 16-21). -/
structure Cache where
  head : Ptr
  tail : Ptr
  size : Int
  max_size : Int
deriving DecidableEq, Repr

/-- Ways in which a C operation fails to return normally: dereferencing `NULL`,
touching a freed block, signed overflow of an `int`, and a loop that never ends. -/
inductive Fault where
  | null_deref
  | use_after_free
  | overflow
  | diverge
deriving DecidableEq, Repr

/-- The heap of `CacheEntry` blocks: cell `a` is `some e` while block `a` is allocated
and `none` once it has been passed to `free`.  Addresses are never handed out twice,
so a pointer to a freed block stays recognisable as dangling. -/
abbrev Heap := List (Option CacheEntry)

/-- The program state: the single `Cache` object and the heap of its entries. -/
structure State where
  cache : Cache
  heap : Heap
deriving DecidableEq, Repr

/-- Read through a pointer (`p->field`). -/
def load (h : Heap) (p : Ptr) : Except Fault CacheEntry :=
  match p with
  | none => .error .null_deref
  | some a =>
    match h[a]? with
    | some (some e) => .ok e
    | _ => .error .use_after_free

/-- Write through a pointer (`p->field = v`): the block must be allocated. -/
def store (h : Heap) (p : Ptr) (f : CacheEntry → CacheEntry) : Except Fault Heap :=
  match p with
  | none => .error .null_deref
  | some a =>
    match h[a]? with
    | some (some e) => .ok (h.set a (some (f e)))
    | _ => .error .use_after_free

/-- The library call `free(p)`: nothing happens for `NULL`, an allocated block becomes
freed, and freeing a block twice is a fault. -/
def free (h : Heap) (p : Ptr) : Except Fault Heap :=
  match p with
  | none => .ok h
  | some a =>
    match h[a]? with
    | some (some _) => .ok (h.set a none)
    | _ => .error .use_after_free

/-- Mirror of `create_cache` (collatz.c lines 128-134). -/
def create_cache (max_size : Int) : State :=
  { cache := { head := none, tail := none, size := 0, max_size := max_size }, heap := [] }

/-- Lines 237-241 of `cache_move_to_tail`:
`if (entry->previous != NULL) entry->previous->next = entry->next; else cache->head = entry->next;` -/
def move_unlink_previous (s : State) (entry : Ptr) : Except Fault State := do
  let e ← load s.heap entry
  if e.previous ≠ none then do
    let h ← store s.heap e.previous (fun x => { x with next := e.next })
    pure { s with heap := h }
  else pure { s with cache := { s.cache with head := e.next } }

/-- Lines 243-247 of `cache_move_to_tail`:
`if (entry->next != NULL) entry->next->previous = entry->previous; else cache->tail = entry->previous;` -/
def move_unlink_next (s : State) (entry : Ptr) : Except Fault State := do
  let e ← load s.heap entry
  if e.next ≠ none then do
    let h ← store s.heap e.next (fun x => { x with previous := e.previous })
    pure { s with heap := h }
  else pure { s with cache := { s.cache with tail := e.previous } }

/-- Lines 249-255 of `cache_move_to_tail`:
`entry->next = NULL; entry->previous = cache->tail;`
`if (cache->tail != NULL) cache->tail->next = entry; cache->tail = entry;` -/
def move_link_tail (s : State) (entry : Ptr) : Except Fault State := do
  let h3 ← store s.heap entry (fun x => { x with next := none })
  let h4 ← store h3 entry (fun x => { x with previous := s.cache.tail })
  let h5 ←
    if s.cache.tail ≠ none then store h4 s.cache.tail (fun x => { x with next := entry })
    else pure h4
  pure { cache := { s.cache with tail := entry }, heap := h5 }

/-- Mirror of `cache_move_to_tail` (collatz.c lines 232-256): the early return of
lines 233-235, then the three groups of statements in order. -/
def cache_move_to_tail (s : State) (entry : Ptr) : Except Fault State :=
  if s.cache.tail = entry then .ok s
  else do
    let s1 ← move_unlink_previous s entry
    let s2 ← move_unlink_next s1 entry
    move_link_tail s2 entry

/-- The `while (current != NULL)` loop of `cache_contains` (collatz.c lines 192-198).
The result is the returned `int` and the state after the call. -/
def cache_contains_loop (s : State) (number : Int) : Nat → Ptr → Except Fault (Int × State)
  | _, none => .ok (-1, s)
  | 0, some _ => .error .diverge
  | fuel + 1, some a => do
    let e ← load s.heap (some a)
    if e.number = number then do
      let s1 ← cache_move_to_tail s (some a)
      let e1 ← load s1.heap (some a)
      pure (e1.steps, s1)
    else cache_contains_loop s number fuel e.next

/-- Mirror of `cache_contains` (collatz.c lines 190-200).  The search does not modify
the heap, so a walk that has visited more blocks than the heap holds has entered a
cycle and the C loop never ends: the heap size is enough fuel. -/
def cache_contains (s : State) (number : Int) : Except Fault (Int × State) :=
  cache_contains_loop s number s.heap.length s.cache.head

/-- Mirror of `cache_remove_oldest` (collatz.c lines 221-230). -/
def cache_remove_oldest (s : State) : Except Fault State :=
  if s.cache.head = none then .ok s
  else do
    let old_entry := s.cache.head
    let e ← load s.heap s.cache.head
    let h ← free s.heap old_entry
    pure { cache := { s.cache with head := e.next, size := s.cache.size - 1 }, heap := h }

/-- Mirror of `lru_eviction` (collatz.c lines 146-149). -/
def lru_eviction (s : State) : Except Fault State :=
  cache_remove_oldest s

/-- Mirror of `fifo_eviction` (collatz.c lines 151-154). -/
def fifo_eviction (s : State) : Except Fault State :=
  cache_remove_oldest s

/-- The `for` loop of `random_eviction` (collatz.c lines 164-166): follow `next` links. -/
def advance (h : Heap) : Nat → Ptr → Except Fault Ptr
  | 0, current => .ok current
  | i + 1, current => do
    let c ← load h current
    advance h i c.next

/-- Lines 168-178 of `random_eviction`: take `current` out of the list, through
`cache->head` when it is the head and through `current->previous` otherwise. -/
def random_unlink (s : State) (current : Ptr) : Except Fault State :=
  if current = s.cache.head then do
    let c ← load s.heap current
    let s0 : State := { s with cache := { s.cache with head := c.next } }
    if s0.cache.head ≠ none then do
      let h ← store s0.heap s0.cache.head (fun x => { x with previous := none })
      pure { s0 with heap := h }
    else pure s0
  else do
    let c ← load s.heap current
    let h ← store s.heap c.previous (fun x => { x with next := c.next })
    let c1 ← load h current
    if c1.next ≠ none then do
      let h1 ← store h c1.next (fun x => { x with previous := c1.previous })
      pure { s with heap := h1 }
    else pure { s with heap := h }

/-- Lines 180-182 of `random_eviction`:
`if (current == cache->tail) cache->tail = current->previous;` -/
def random_fix_tail (s : State) (current : Ptr) : Except Fault State :=
  if current = s.cache.tail then do
    let c ← load s.heap current
    pure { s with cache := { s.cache with tail := c.previous } }
  else pure s

/-- Mirror of `random_eviction` (collatz.c lines 156-187); `rand` is the value returned
by the call of the library function `rand()`. -/
def random_eviction (rand : Nat) (s : State) : Except Fault State :=
  if s.cache.size = 0 then .ok s
  else do
    let random_index := (Int.tmod (rand : Int) s.cache.size).toNat
    let current ← advance s.heap random_index s.cache.head
    let s1 ← random_unlink s current
    let s2 ← random_fix_tail s1 current
    let h ← free s2.heap current
    pure { cache := { s2.cache with size := s2.cache.size - 1 }, heap := h }

/-- The allocation and linking part of `cache_insert` (collatz.c lines 207-218), run on
the state left by the eviction.  `cache_insert` assigns `number`, `steps` and `next` of
the new block and never assigns `previous`, which therefore keeps whatever the block
held.  Allocation model: `malloc` hands out the next unused address and the block is
zero-filled, so `previous` reads `NULL`.  This is what a first allocation from fresh
heap memory gives; an allocator that recycles a freed block hands out an old address
whose `previous` field still holds its last content, and such runs are outside this
model.  Statements about all runs are therefore made only where they do not depend on
the content of `previous` in a new block. -/
def cache_insert_link (s1 : State) (number steps : Int) : Except Fault State :=
  let new_entry : Ptr := some s1.heap.length
  let h := s1.heap ++ [some { number := number, steps := steps, next := none, previous := none }]
  if s1.cache.head = none then
    .ok { cache := { s1.cache with head := new_entry, tail := new_entry,
                                   size := s1.cache.size + 1 }, heap := h }
  else do
    let h1 ← store h s1.cache.tail (fun x => { x with next := new_entry })
    pure { cache := { s1.cache with tail := new_entry, size := s1.cache.size + 1 }, heap := h1 }

/-- Mirror of `cache_insert` (collatz.c lines 202-219): evict when full (lines 203-205),
then allocate and link the new entry. -/
def cache_insert (s : State) (number steps : Int)
    (eviction_policy : State → Except Fault State) : Except Fault State :=
  if s.cache.size = s.cache.max_size then do
    let s1 ← eviction_policy s
    cache_insert_link s1 number steps
  else cache_insert_link s number steps

/-- Largest value of a C `int` (32 bits). -/
def INT_MAX : Int := 2147483647

/-- Smallest value of a C `int` (32 bits). -/
def INT_MIN : Int := -2147483648

/-- Whether a mathematical integer is representable as a C `int`. -/
def in_int_range (x : Int) : Bool :=
  decide (INT_MIN ≤ x) && decide (x ≤ INT_MAX)

/-- The `while (starting_number != 1)` loop of `calculate_collatz_steps`
(collatz.c lines 104-111).  Signed overflow is undefined in C and reported as a fault;
running out of fuel is reported as `diverge`. -/
def calculate_collatz_steps_loop : Nat → Int → Int → Except Fault Int
  | 0, starting_number, step_count =>
    if starting_number = 1 then .ok step_count else .error .diverge
  | fuel + 1, starting_number, step_count =>
    if starting_number = 1 then .ok step_count
    else if Int.tmod starting_number 2 = 0 then
      if in_int_range (step_count + 1) then
        calculate_collatz_steps_loop fuel (Int.tdiv starting_number 2) (step_count + 1)
      else .error .overflow
    else
      if in_int_range (3 * starting_number) && in_int_range (3 * starting_number + 1)
          && in_int_range (step_count + 1) then
        calculate_collatz_steps_loop fuel (3 * starting_number + 1) (step_count + 1)
      else .error .overflow

/-- Mirror of `calculate_collatz_steps` (collatz.c lines 101-113) with a bound `fuel`
on the number of loop iterations. -/
def calculate_collatz_steps (fuel : Nat) (starting_number : Int) : Except Fault Int :=
  calculate_collatz_steps_loop fuel starting_number 0

/-- Result of `get_steps_with_cache`: the returned step count, the value written to
`*cache_hit`, and the state after the call. -/
structure Lookup where
  steps : Int
  cache_hit : Int
  state : State
deriving DecidableEq, Repr

/-- Mirror of `get_steps_with_cache` (collatz.c lines 115-126). -/
def get_steps_with_cache (fuel : Nat) (s : State) (number : Int)
    (eviction_policy : State → Except Fault State) : Except Fault Lookup := do
  let (cached_steps, s1) ← cache_contains s number
  if cached_steps ≠ -1 then
    pure { steps := cached_steps, cache_hit := 1, state := s1 }
  else do
    let steps ← calculate_collatz_steps fuel number
    let s2 ← cache_insert s1 number steps eviction_policy
    pure { steps := steps, cache_hit := 0, state := s2 }

/-- The three policy names accepted by `main` (collatz.c lines 66-75). -/
inductive Policy where
  | LRU
  | FIFO
  | RR
deriving DecidableEq, Repr

/-- The function `main` selects for a policy name; `rand` is the draw `random_eviction`
obtains from `rand()` should it run. -/
def Policy.eviction (p : Policy) (rand : Nat) : State → Except Fault State :=
  match p with
  | .LRU => lru_eviction
  | .FIFO => fifo_eviction
  | .RR => random_eviction rand

/-- Addresses of the entries reachable from a pointer by `next` links, in order (the
traversal of `free_cache` and `cache_contains`); stops at `NULL`, at a freed block and
after `fuel` entries. -/
def chain_from (h : Heap) : Nat → Ptr → List Nat
  | _, none => []
  | 0, some _ => []
  | fuel + 1, some a =>
    match h[a]? with
    | some (some e) => a :: chain_from h fuel e.next
    | _ => []

/-- The entries reachable from `cache->head`, oldest end first. -/
def entries (s : State) : List CacheEntry :=
  (chain_from s.heap s.heap.length s.cache.head).filterMap (fun a => (s.heap[a]?).join)

/-- The keys (`number` fields) of the entries reachable from `cache->head`, in order. -/
def keys (s : State) : List Int :=
  (entries s).map CacheEntry.number

/-- Mirror of `#define MAX_RANDOM_VALUE 1000000` (collatz.c line 6). -/
def MAX_RANDOM_VALUE : Int := 1000000

/-- Mirror of `#define MIN_RANDOM_VALUE 1` (collatz.c line 7). -/
def MIN_RANDOM_VALUE : Int := 1

/-- The loop of `calculate_collatz_steps` (collatz.c lines 104-111) in exact integer
arithmetic: the same statements with no bound on the size of an `int`.  The result is
`none` when `fuel` iterations do not reach 1. -/
def calculate_collatz_steps_exact_loop : Nat → Int → Int → Option Int
  | 0, starting_number, step_count =>
    if starting_number = 1 then some step_count else none
  | fuel + 1, starting_number, step_count =>
    if starting_number = 1 then some step_count
    else if Int.tmod starting_number 2 = 0 then
      calculate_collatz_steps_exact_loop fuel (Int.tdiv starting_number 2) (step_count + 1)
    else
      calculate_collatz_steps_exact_loop fuel (3 * starting_number + 1) (step_count + 1)

/-- Mirror of `calculate_collatz_steps` (collatz.c lines 101-113) in exact integer
arithmetic, with a bound `fuel` on the number of loop iterations. -/
def calculate_collatz_steps_exact (fuel : Nat) (starting_number : Int) : Option Int :=
  calculate_collatz_steps_exact_loop fuel starting_number 0

/-- The Collatz step in the words of the specification: `m / 2` for even `m` and
`3 m + 1` for odd `m`. -/
def collatz_T (m : Int) : Int :=
  if m % 2 = 0 then m / 2 else 3 * m + 1

/-- Mirror of `main` up to and including the call of `create_cache` (collatz.c lines
38-78).  Each of the five arguments is given as the value its `sscanf` call stores, or
`none` when that call does not return 1.  The result is the exit status when `main`
returns early, and otherwise the selected policy with the cache `create_cache` built.
The policy name is taken to fit `char cache_policy[10]`: a name of 10 or more
characters overflows that buffer in `sscanf`, which this definition does not model. -/
def main_setup (argc : Nat) (number_of_tests min_value max_value : Option Int)
    (cache_policy : Option String) (cache_size : Option Int) : Except Int (Policy × State) :=
  if argc ≠ 6 then .error 1
  else
    match number_of_tests, min_value, max_value, cache_size, cache_policy with
    | some n, some lo, some hi, some size, some name =>
      if n ≤ 0 ∨ lo < MIN_RANDOM_VALUE ∨ hi ≤ lo then .error 1
      else if name = "LRU" then .ok (.LRU, create_cache size)
      else if name = "FIFO" then .ok (.FIFO, create_cache size)
      else if name = "RR" then .ok (.RR, create_cache size)
      else .error 1
    | _, _, _, _, _ => .error 1

/-! ## Representation invariant -/

/-- A `previous` field is acceptable next to predecessor `q`: it is `NULL`, it is `q`,
or it dangles (refers to a freed block). -/
def PrevOk (h : Heap) (q pv : Ptr) : Prop :=
  pv = none ∨ pv = q ∨ ∃ b, pv = some b ∧ h[b]? = some none

/-- The blocks `l` form a `next`-linked segment from `p` up to (excluding) `r`;
`q` is the block before the segment. -/
def Lseg (h : Heap) : Ptr → Ptr → List Nat → Ptr → Prop
  | p, _, [], r => p = r
  | p, q, a :: l, r =>
    p = some a ∧ ∃ e, h[a]? = some (some e) ∧ PrevOk h q e.previous ∧ Lseg h e.next (some a) l r

/-- Well-formed cache: the blocks `l` are exactly the list hanging off `head`,
without repetition, and `tail` is its last block. -/
structure WF (s : State) (l : List Nat) : Prop where
  seg : Lseg s.heap s.cache.head none l none
  nodup : l.Nodup
  tail : ∀ t, l.getLast? = some t → s.cache.tail = some t

/-- The block before whatever follows the segment `l` that itself follows `q`. -/
def lastPtr (q : Ptr) (l : List Nat) : Ptr :=
  match l.getLast? with
  | some b => some b
  | none => q

/-- The key and value stored in block `a`, if it is allocated. -/
def data (h : Heap) (a : Nat) : Option (Int × Int) :=
  match h[a]? with
  | some (some e) => some (e.number, e.steps)
  | _ => none

/-- The keys and values held by the blocks `l`, in order. -/
def kv (h : Heap) (l : List Nat) : List (Int × Int) :=
  l.filterMap (data h)

/-- One call on the cache: `cache_insert` (with the draw `rand()` returns should the
random policy run) or `cache_contains`. -/
inductive Op where
  | insert (number steps : Int) (rand : Nat)
  | contains (number : Int)
deriving DecidableEq, Repr

/-- Run one call under the policy `p`, keeping only the state. -/
def Op.run (p : Policy) (s : State) : Op → Except Fault State
  | .insert number steps rand => cache_insert s number steps (p.eviction rand)
  | .contains number =>
    match cache_contains s number with
    | .ok (_, s1) => .ok s1
    | .error f => .error f

/-- Run a sequence of calls, stopping at the first fault. -/
def run_ops (p : Policy) : List Op → State → Except Fault State
  | [], s => .ok s
  | op :: ops, s =>
    match op.run p s with
    | .ok s1 => run_ops p ops s1
    | .error f => .error f

/-- Invariant behind the capacity bound: a well-formed list, a size within bounds, and
a list that is empty only when the size is zero. -/
def SizeInv (s : State) (m : Int) : Prop :=
  ∃ l, WF s l ∧ 0 ≤ s.cache.size ∧ s.cache.size ≤ s.cache.max_size ∧ s.cache.max_size = m ∧
    (l = [] → s.cache.size = 0)

/-- The calls `cache_insert(cache, number, steps, policy)` for a list of
(number, steps) pairs, in order, with no lookup in between.  The draw is fixed to 0:
`lru_eviction` and `fifo_eviction` do not call `rand()`. -/
def insert_calls (kvs : List (Int × Int)) : List Op :=
  kvs.map (fun x => Op.insert x.1 x.2 0)

/-- The loop of `main` (collatz.c lines 85-91): one `get_steps_with_cache` call per
test, each given as the number drawn and the draw `random_eviction` would obtain. -/
def run_lookups (fuel : Nat) (p : Policy) : List (Int × Nat) → State → Except Fault State
  | [], s => .ok s
  | c :: cs, s =>
    match get_steps_with_cache fuel s c.1 (p.eviction c.2) with
    | .ok r => run_lookups fuel p cs r.state
    | .error f => .error f

/-- Invariant behind the absence of duplicates: a well-formed list whose blocks hold
pairwise different keys and no stored step count equal to the miss value. -/
def KeyInv (s : State) : Prop :=
  ∃ l, WF s l ∧
    (∀ x ∈ l, ∀ y ∈ l, (data s.heap x).map Prod.fst = (data s.heap y).map Prod.fst → x = y) ∧
    (∀ x ∈ l, ∀ d, data s.heap x = some d → d.2 ≠ -1)

/-- Capacity 3 after `cache_insert` of the keys 1, 2, 3 (steps 0, 1, 7). -/
def three_entries : State :=
  { cache := { head := some 0, tail := some 2, size := 3, max_size := 3 }
    heap := [some { number := 1, steps := 0, next := some 1, previous := none },
             some { number := 2, steps := 1, next := some 2, previous := none },
             some { number := 3, steps := 7, next := none, previous := none }] }

/-- The state `three_entries` after `cache_contains(cache, 2)`: `head` points at the
block of key 3, and the block of key 1 is no longer reachable from `head`. -/
def three_entries_after_lookup : State :=
  { cache := { head := some 2, tail := some 1, size := 3, max_size := 3 }
    heap := [some { number := 1, steps := 0, next := some 1, previous := none },
             some { number := 2, steps := 1, next := none, previous := some 2 },
             some { number := 3, steps := 7, next := some 1, previous := none }] }

/-- Capacity 2 after `cache_insert` of the keys 4 and 7 (steps 5 and 11). -/
def two_entries : State :=
  { cache := { head := some 0, tail := some 1, size := 2, max_size := 2 }
    heap := [some { number := 4, steps := 5, next := some 1, previous := none },
             some { number := 7, steps := 11, next := none, previous := none }] }

/-- The state `two_entries` after `cache_contains(cache, 4)`. -/
def two_entries_after_lookup : State :=
  { cache := { head := some 1, tail := some 0, size := 2, max_size := 2 }
    heap := [some { number := 4, steps := 5, next := none, previous := some 1 },
             some { number := 7, steps := 11, next := some 0, previous := none }] }

/-- Capacity 2 after insert 4, insert 7, lookup 4, insert 27: the block of key 7 is
freed and the `previous` field of the block of key 4 still refers to it. -/
def refreshed_then_full : State :=
  { cache := { head := some 0, tail := some 2, size := 2, max_size := 2 }
    heap := [some { number := 4, steps := 5, next := some 2, previous := some 1 },
             none,
             some { number := 27, steps := 111, next := none, previous := none }] }

/-- Capacity 2 after insert 4, insert 7, insert 27 with no lookup: key 4 is evicted. -/
def full_without_lookup : State :=
  { cache := { head := some 1, tail := some 2, size := 2, max_size := 2 }
    heap := [none,
             some { number := 7, steps := 11, next := some 2, previous := none },
             some { number := 27, steps := 111, next := none, previous := none }] }

/-- Capacity 2 after the driver has processed the numbers 4, 7, 4, 27 under LRU
(Collatz step counts 2, 16 and 111). -/
def driver_after_four_calls : State :=
  { cache := { head := some 0, tail := some 2, size := 2, max_size := 2 }
    heap := [some { number := 4, steps := 2, next := some 2, previous := some 1 },
             none,
             some { number := 27, steps := 111, next := none, previous := none }] }

/-- Capacity 1 holding the single key 4. -/
def single_entry : State :=
  { cache := { head := some 0, tail := some 0, size := 1, max_size := 1 }
    heap := [some { number := 4, steps := 2, next := none, previous := none }] }

/-- Capacity 2 after the driver has processed the numbers 4 and 7 (Collatz step
counts 2 and 16). -/
def driver_two_entries : State :=
  { cache := { head := some 0, tail := some 1, size := 2, max_size := 2 }
    heap := [some { number := 4, steps := 2, next := some 1, previous := none },
             some { number := 7, steps := 16, next := none, previous := none }] }

/-- The cache `create_cache(0)` after the driver has processed the numbers 4 and 7:
`size` is 2 and `max_size` is 0. -/
def zero_capacity_two_entries : State :=
  { cache := { head := some 0, tail := some 1, size := 2, max_size := 0 }
    heap := [some { number := 4, steps := 2, next := some 1, previous := none },
             some { number := 7, steps := 16, next := none, previous := none }] }

/-- Invariant behind transparent caching: a well-formed list in which every stored step
count is the one `calculate_collatz_steps` returns for the stored number. -/
def ValInv (fuel : Nat) (s : State) : Prop :=
  ∃ l, WF s l ∧
    ∀ x ∈ l, ∀ d, data s.heap x = some d → calculate_collatz_steps fuel d.1 = .ok d.2

/-! ## Theorems -/

theorem load_live {h : Heap} {a : Nat} {e : CacheEntry} (ha : h[a]? = some (some e)) :
    load h (some a) = .ok e := by
  simp [load, ha]

theorem store_live {h : Heap} {a : Nat} {e : CacheEntry} (ha : h[a]? = some (some e))
    (f : CacheEntry → CacheEntry) : store h (some a) f = .ok (h.set a (some (f e))) := by
  simp [store, ha]

theorem free_live {h : Heap} {a : Nat} {e : CacheEntry} (ha : h[a]? = some (some e)) :
    free h (some a) = .ok (h.set a none) := by
  simp [free, ha]

theorem load_dead {h : Heap} {a : Nat} (ha : h[a]? = some none) :
    load h (some a) = .error .use_after_free := by
  simp [load, ha]

theorem store_dead {h : Heap} {a : Nat} (ha : h[a]? = some none)
    (f : CacheEntry → CacheEntry) : store h (some a) f = .error .use_after_free := by
  simp [store, ha]

theorem get_set_same {h : Heap} {a : Nat} {v : Option CacheEntry} {w : Option CacheEntry}
    (ha : h[a]? = some w) : (h.set a v)[a]? = some v := by
  have : a < h.length := by
    by_contra hc
    rw [List.getElem?_eq_none (by omega)] at ha
    exact absurd ha (by simp)
  simp [this]

theorem get_set_ne {h : Heap} {a b : Nat} (v : Option CacheEntry) (hab : a ≠ b) :
    (h.set a v)[b]? = h[b]? := by
  simp [hab]

theorem prevOk_set {h : Heap} {q pv : Ptr} {x : Nat} {e0 : CacheEntry} (v : Option CacheEntry)
    (hx : h[x]? = some (some e0)) (hp : PrevOk h q pv) : PrevOk (h.set x v) q pv := by
  rcases hp with hp | hp | ⟨b, hb, hd⟩
  · exact Or.inl hp
  · exact Or.inr (Or.inl hp)
  · refine Or.inr (Or.inr ⟨b, hb, ?_⟩)
    have hne : x ≠ b := by
      intro hxb
      rw [hxb, hd] at hx
      exact absurd hx (by simp)
    rw [get_set_ne v hne]
    exact hd

theorem lseg_set {h : Heap} {x : Nat} {e0 : CacheEntry} (v : Option CacheEntry)
    (hx : h[x]? = some (some e0)) :
    ∀ (l : List Nat) (p q r : Ptr), x ∉ l → Lseg h p q l r → Lseg (h.set x v) p q l r := by
  intro l
  induction l with
  | nil => intro p q r _ hs; exact hs
  | cons a l ih =>
    intro p q r hnot hs
    obtain ⟨hp, e, he, hpv, hrest⟩ := hs
    have hax : x ≠ a := fun hc => hnot (by simp [hc])
    have hxl : x ∉ l := fun hc => hnot (by simp [hc])
    refine ⟨hp, e, ?_, prevOk_set v hx hpv, ih _ _ _ hxl hrest⟩
    rw [get_set_ne v hax]
    exact he

theorem get_append_old {h : Heap} {a : Nat} {w : Option CacheEntry} (c : Option CacheEntry)
    (ha : h[a]? = some w) : (h ++ [c])[a]? = some w := by
  have : a < h.length := by
    by_contra hc
    rw [List.getElem?_eq_none (by omega)] at ha
    exact absurd ha (by simp)
  rw [List.getElem?_append_left this]
  exact ha

theorem prevOk_append {h : Heap} {q pv : Ptr} (c : Option CacheEntry)
    (hp : PrevOk h q pv) : PrevOk (h ++ [c]) q pv := by
  rcases hp with hp | hp | ⟨b, hb, hd⟩
  · exact Or.inl hp
  · exact Or.inr (Or.inl hp)
  · exact Or.inr (Or.inr ⟨b, hb, get_append_old c hd⟩)

theorem lseg_alloc {h : Heap} (c : Option CacheEntry) :
    ∀ (l : List Nat) (p q r : Ptr), Lseg h p q l r → Lseg (h ++ [c]) p q l r := by
  intro l
  induction l with
  | nil => intro p q r hs; exact hs
  | cons a l ih =>
    intro p q r hs
    obtain ⟨hp, e, he, hpv, hrest⟩ := hs
    exact ⟨hp, e, get_append_old c he, prevOk_append c hpv, ih _ _ _ hrest⟩

theorem lseg_live {h : Heap} :
    ∀ (l : List Nat) (p q r : Ptr), Lseg h p q l r → ∀ a ∈ l, ∃ e, h[a]? = some (some e) := by
  intro l
  induction l with
  | nil => intro p q r _ a ha; simp at ha
  | cons b l ih =>
    intro p q r hs a ha
    obtain ⟨_, e, he, _, hrest⟩ := hs
    rcases List.mem_cons.mp ha with hab | hal
    · exact ⟨e, hab ▸ he⟩
    · exact ih _ _ _ hrest a hal

theorem lastPtr_nil (q : Ptr) : lastPtr q [] = q := rfl

theorem lastPtr_cons (q : Ptr) (a : Nat) (l : List Nat) :
    lastPtr q (a :: l) = lastPtr (some a) l := by
  cases l with
  | nil => rfl
  | cons b l =>
    have hne : (b :: l).getLast? ≠ none := by simp
    simp only [lastPtr, List.getLast?_cons_cons]
    cases hh : (b :: l).getLast? with
    | none => exact absurd hh hne
    | some c => rfl

theorem lseg_append {h : Heap} :
    ∀ (l1 l2 : List Nat) (p q r : Ptr),
      Lseg h p q (l1 ++ l2) r ↔ ∃ m, Lseg h p q l1 m ∧ Lseg h m (lastPtr q l1) l2 r := by
  intro l1
  induction l1 with
  | nil =>
    intro l2 p q r
    constructor
    · intro hs; exact ⟨p, rfl, hs⟩
    · rintro ⟨m, hm, hs⟩
      have : p = m := hm
      subst this
      exact hs
  | cons a l1 ih =>
    intro l2 p q r
    rw [lastPtr_cons]
    constructor
    · rintro ⟨hp, e, he, hpv, hrest⟩
      obtain ⟨m, h1, h2⟩ := (ih l2 _ _ r).mp hrest
      exact ⟨m, ⟨hp, e, he, hpv, h1⟩, h2⟩
    · rintro ⟨m, ⟨hp, e, he, hpv, h1⟩, h2⟩
      exact ⟨hp, e, he, hpv, (ih l2 _ _ r).mpr ⟨m, h1, h2⟩⟩

theorem lseg_set_last {h : Heap} {p q r : Ptr} {l : List Nat} {t : Nat} {et : CacheEntry}
    (e1 : CacheEntry) (hs : Lseg h p q (l ++ [t]) r) (ht : t ∉ l) (hlive : h[t]? = some (some et))
    (hprev : e1.previous = et.previous) :
    Lseg (h.set t (some e1)) p q (l ++ [t]) e1.next := by
  obtain ⟨m, h1, h2⟩ := (lseg_append l [t] p q r).mp hs
  obtain ⟨hm, e, he, hpv, _⟩ := h2
  have hee : e = et := by
    rw [he] at hlive
    injection hlive with h3
    injection h3
  subst hee
  refine (lseg_append l [t] p q e1.next).mpr ⟨m, lseg_set _ hlive l p q m ht h1, ?_⟩
  refine ⟨hm, e1, get_set_same hlive, ?_, rfl⟩
  rw [hprev]
  exact prevOk_set _ hlive hpv

theorem lseg_set_first {h : Heap} {p q r : Ptr} {l : List Nat} {n : Nat} {en : CacheEntry}
    (q1 : Ptr) (e1 : CacheEntry) (hs : Lseg h p q (n :: l) r) (hn : n ∉ l) (hlive : h[n]? = some (some en))
    (hnext : e1.next = en.next) (hpv : PrevOk h q1 e1.previous) :
    Lseg (h.set n (some e1)) p q1 (n :: l) r := by
  obtain ⟨hp, e, he, _, hrest⟩ := hs
  have hee : e = en := by
    rw [he] at hlive
    injection hlive with h3
    injection h3
  subst hee
  refine ⟨hp, e1, get_set_same hlive, prevOk_set _ hlive hpv, ?_⟩
  rw [hnext]
  exact lseg_set _ hlive l _ _ r hn hrest

theorem lseg_head_none {h : Heap} {q r : Ptr} {l : List Nat} (hs : Lseg h none q l r)
    : l = [] := by
  cases l with
  | nil => rfl
  | cons a l => exact absurd hs.1 (by simp)

theorem lseg_head_some {h : Heap} {q : Ptr} {l : List Nat} {a : Nat}
    (hs : Lseg h (some a) q l none) : ∃ l1, l = a :: l1 := by
  cases l with
  | nil => exact absurd hs (by simp [Lseg])
  | cons b l =>
    have : some a = some b := hs.1
    injection this with hab
    exact ⟨l, by rw [hab]⟩

theorem lseg_lt {h : Heap} {p q r : Ptr} {l : List Nat} (hs : Lseg h p q l r) :
    ∀ a ∈ l, a < h.length := by
  intro a ha
  obtain ⟨e, he⟩ := lseg_live l p q r hs a ha
  by_contra hc
  rw [List.getElem?_eq_none (by omega)] at he
  exact absurd he (by simp)

theorem data_live {h : Heap} {a : Nat} {e : CacheEntry} (ha : h[a]? = some (some e)) :
    data h a = some (e.number, e.steps) := by
  simp [data, ha]

theorem data_set {h : Heap} {b : Nat} {eb e1 : CacheEntry} (hb : h[b]? = some (some eb))
    (hn : e1.number = eb.number) (hs : e1.steps = eb.steps) (x : Nat) :
    data (h.set b (some e1)) x = data h x := by
  by_cases hbx : b = x
  · subst hbx
    rw [data_live (get_set_same hb), data_live hb, hn, hs]
  · unfold data
    rw [get_set_ne _ hbx]

theorem data_append {h : Heap} {x : Nat} (c : Option CacheEntry) (hx : x < h.length) :
    data (h ++ [c]) x = data h x := by
  unfold data
  rw [List.getElem?_append_left hx]

theorem insert_link_wf {s1 : State} {l : List Nat} (number steps : Int) (hwf : WF s1 l) :
    ∃ s2, cache_insert_link s1 number steps = .ok s2 ∧
      WF s2 (l ++ [s1.heap.length]) ∧
      s2.cache.size = s1.cache.size + 1 ∧ s2.cache.max_size = s1.cache.max_size ∧
      s2.heap.length = s1.heap.length + 1 ∧
      s2.heap[s1.heap.length]? =
        some (some { number := number, steps := steps, next := none, previous := none }) ∧
      (∀ x, x < s1.heap.length → data s2.heap x = data s1.heap x) := by
  have hfresh : s1.heap.length ∉ l := fun hc => Nat.lt_irrefl _ (lseg_lt hwf.seg _ hc)
  have hnd : (l ++ [s1.heap.length]).Nodup := by
    rw [List.nodup_append]
    refine ⟨hwf.nodup, by simp, ?_⟩
    intro a ha hb
    simp at hb
    exact hfresh (hb ▸ ha)
  have hnew : (s1.heap ++ [some ({ number := number, steps := steps, next := none, previous := none } : CacheEntry)])[s1.heap.length]?
      = some (some { number := number, steps := steps, next := none, previous := none }) := by
    simp
  cases hhead : s1.cache.head with
  | none =>
    have hl : l = [] := by
      have := hwf.seg
      rw [hhead] at this
      exact lseg_head_none this
    subst hl
    have hres : cache_insert_link s1 number steps = .ok
        { cache := { s1.cache with head := some s1.heap.length, tail := some s1.heap.length,
                                   size := s1.cache.size + 1 },
          heap := s1.heap ++ [some { number := number, steps := steps, next := none, previous := none }] } := by
      simp [cache_insert_link, hhead]
    refine ⟨_, hres, ⟨?_, hnd, ?_⟩, rfl, rfl, by simp, hnew, fun x hx => data_append _ hx⟩
    · exact ⟨rfl, CacheEntry.mk number steps none none, hnew, Or.inl rfl, rfl⟩
    · intro t ht
      simp at ht
      simp [ht]
  | some a =>
    obtain ⟨l1, hl1⟩ := lseg_head_some (hhead ▸ hwf.seg)
    have hne : l ≠ [] := by simp [hl1]
    obtain ⟨l0, t, hl0⟩ : ∃ l0 t, l = l0 ++ [t] := by
      rcases List.eq_nil_or_concat l with h0 | ⟨L, b, hb⟩
      · exact absurd h0 hne
      · exact ⟨L, b, by simpa using hb⟩
    have htail : s1.cache.tail = some t := hwf.tail t (by simp [hl0])
    have htl : t ∈ l := by simp [hl0]
    obtain ⟨et, het⟩ := lseg_live l _ _ _ hwf.seg t htl
    have het1 := get_append_old (some ({ number := number, steps := steps, next := none, previous := none } : CacheEntry)) het
    have htlt : t < s1.heap.length := lseg_lt hwf.seg t htl
    have htnot : t ∉ l0 := by
      have := hwf.nodup
      rw [hl0, List.nodup_append] at this
      intro hc
      exact this.2.2 hc (by simp)
    have hres : cache_insert_link s1 number steps = .ok
        { cache := { s1.cache with tail := some s1.heap.length, size := s1.cache.size + 1 },
          heap := (s1.heap ++ [some (CacheEntry.mk number steps none none)]).set t
            (some { et with next := some s1.heap.length }) } := by
      simp [cache_insert_link, hhead, htail, store_live het1, bind, Except.bind, pure, Except.pure]
    refine ⟨_, hres, ⟨?_, hnd, ?_⟩, rfl, rfl, by simp, ?_, ?_⟩
    · show Lseg _ s1.cache.head none (l ++ [s1.heap.length]) none
      have hseg1 := lseg_alloc (some ({ number := number, steps := steps, next := none, previous := none } : CacheEntry)) l _ _ _ hwf.seg
      rw [hl0] at hseg1
      have hseg2 := lseg_set_last ({ et with next := some s1.heap.length }) hseg1 htnot het1 rfl
      rw [hl0]
      refine (lseg_append (l0 ++ [t]) [s1.heap.length] _ _ _).mpr ⟨_, hseg2, ?_⟩
      refine ⟨rfl, CacheEntry.mk number steps none none, ?_, Or.inl rfl, rfl⟩
      show (List.set _ t _)[s1.heap.length]? = _
      rw [get_set_ne _ (Nat.ne_of_lt htlt)]
      exact hnew
    · intro t1 ht1
      simp at ht1
      simp [ht1]
    · show (List.set _ t _)[s1.heap.length]? = _
      rw [get_set_ne _ (Nat.ne_of_lt htlt)]
      exact hnew
    · intro x hx
      show data (List.set _ t _) x = _
      rw [data_set het1 (by rfl) (by rfl) x]
      exact data_append _ hx

theorem lseg_free_pred {h : Heap} {p r : Ptr} {l : List Nat} {a : Nat} {e : CacheEntry}
    (hs : Lseg h p (some a) l r) (ha : a ∉ l) (hlive : h[a]? = some (some e)) :
    Lseg (h.set a none) p none l r := by
  cases l with
  | nil => exact hs
  | cons n l2 =>
    obtain ⟨hp, en, hen, hpv, hrest⟩ := hs
    have han : a ≠ n := fun hc => ha (by simp [hc])
    have hal : a ∉ l2 := fun hc => ha (by simp [hc])
    refine ⟨hp, en, ?_, ?_, lseg_set none hlive l2 _ _ r hal hrest⟩
    · rw [get_set_ne none han]
      exact hen
    · rcases hpv with hpv | hpv | ⟨b, hb, hd⟩
      · exact Or.inl hpv
      · exact Or.inr (Or.inr ⟨a, hpv, get_set_same hlive⟩)
      · refine Or.inr (Or.inr ⟨b, hb, ?_⟩)
        have hne : a ≠ b := by
          intro hab
          rw [hab, hd] at hlive
          exact absurd hlive (by simp)
        rw [get_set_ne none hne]
        exact hd

theorem remove_oldest_wf {s : State} {l : List Nat} (hwf : WF s l) :
    ∃ s1, cache_remove_oldest s = .ok s1 ∧ WF s1 l.tail ∧
      s1.cache.max_size = s.cache.max_size ∧
      s1.cache.size = (if l = [] then s.cache.size else s.cache.size - 1) ∧
      s1.heap.length = s.heap.length ∧
      (∀ a ∈ l.tail, s1.heap[a]? = s.heap[a]?) := by
  cases l with
  | nil =>
    have hhead : s.cache.head = none := hwf.seg
    refine ⟨s, by simp [cache_remove_oldest, hhead], hwf, rfl, by simp, rfl, ?_⟩
    intro a ha
    simp at ha
  | cons a l1 =>
    obtain ⟨hp, e, he, _, hrest⟩ := hwf.seg
    have hnd := hwf.nodup
    rw [List.nodup_cons] at hnd
    have hres : cache_remove_oldest s = .ok
        { cache := { s.cache with head := e.next, size := s.cache.size - 1 },
          heap := s.heap.set a none } := by
      simp [cache_remove_oldest, hp, load_live he, free_live he, bind, Except.bind, pure,
        Except.pure]
    refine ⟨_, hres, ⟨?_, hnd.2, ?_⟩, rfl, by simp, by simp, ?_⟩
    · exact lseg_free_pred hrest hnd.1 he
    · intro t ht
      have : (a :: l1).getLast? = some t := by
        cases l1 with
        | nil => simp at ht
        | cons b l2 => simpa [List.getLast?_cons_cons] using ht
      exact hwf.tail t this
    · intro b hb
      have hab : a ≠ b := fun hc => hnd.1 (hc ▸ hb)
      exact get_set_ne none hab

theorem bind_ok {α β : Type} {x : Except Fault α} {f : α → Except Fault β} {y : β}
    (hxy : (x >>= f) = .ok y) : ∃ a, x = .ok a ∧ f a = .ok y := by
  cases x with
  | error err => simp [bind, Except.bind] at hxy
  | ok a => exact ⟨a, rfl, hxy⟩

theorem load_ok {h : Heap} {p : Ptr} {e : CacheEntry} (hl : load h p = .ok e) :
    ∃ a, p = some a ∧ h[a]? = some (some e) := by
  cases p with
  | none => simp [load] at hl
  | some a =>
    refine ⟨a, rfl, ?_⟩
    cases hh : h[a]? with
    | none => simp [load, hh] at hl
    | some c =>
      cases c with
      | none => simp [load, hh] at hl
      | some e1 =>
        simp [load, hh] at hl
        rw [hl]

theorem store_ok {h h1 : Heap} {p : Ptr} {f : CacheEntry → CacheEntry}
    (hst : store h p f = .ok h1) :
    ∃ a e, p = some a ∧ h[a]? = some (some e) ∧ h1 = h.set a (some (f e)) := by
  cases p with
  | none => simp [store] at hst
  | some a =>
    cases hh : h[a]? with
    | none => simp [store, hh] at hst
    | some c =>
      cases c with
      | none => simp [store, hh] at hst
      | some e1 =>
        simp [store, hh] at hst
        exact ⟨a, e1, rfl, hh, hst.symm⟩

theorem live_inj {h : Heap} {a : Nat} {e1 e2 : CacheEntry} (h1 : h[a]? = some (some e1))
    (h2 : h[a]? = some (some e2)) : e1 = e2 := by
  rw [h1] at h2
  injection h2 with h3
  injection h3

theorem unlink_previous_ok {s s1 : State} {a : Nat} {e : CacheEntry}
    (hop : move_unlink_previous s (some a) = .ok s1) (ha : s.heap[a]? = some (some e)) :
    (e.previous = none ∧ s1 = { s with cache := { s.cache with head := e.next } }) ∨
    (∃ b eb, e.previous = some b ∧ s.heap[b]? = some (some eb) ∧
      s1 = { s with heap := s.heap.set b (some { eb with next := e.next }) }) := by
  unfold move_unlink_previous at hop
  rw [load_live ha] at hop
  cases hp : e.previous with
  | none =>
    left
    simp [hp, bind, Except.bind, pure, Except.pure] at hop
    exact ⟨rfl, hop.symm⟩
  | some b =>
    right
    simp only [bind, Except.bind, hp, ne_eq, not_false_eq_true, reduceCtorEq, ite_true] at hop
    cases hst : store s.heap (some b) (fun x => { x with next := e.next }) with
    | error err => simp [hst] at hop
    | ok h1 =>
      obtain ⟨b1, eb, hb1, hlive, hh1⟩ := store_ok hst
      injection hb1 with hb1
      subst hb1
      simp [hst, pure, Except.pure] at hop
      refine ⟨b, eb, rfl, hlive, ?_⟩
      rw [← hop, hh1]

theorem unlink_next_ok {s s1 : State} {a : Nat} {e : CacheEntry}
    (hop : move_unlink_next s (some a) = .ok s1) (ha : s.heap[a]? = some (some e)) :
    (e.next = none ∧ s1 = { s with cache := { s.cache with tail := e.previous } }) ∨
    (∃ n en, e.next = some n ∧ s.heap[n]? = some (some en) ∧
      s1 = { s with heap := s.heap.set n (some { en with previous := e.previous }) }) := by
  unfold move_unlink_next at hop
  rw [load_live ha] at hop
  cases hp : e.next with
  | none =>
    left
    simp [hp, bind, Except.bind, pure, Except.pure] at hop
    exact ⟨rfl, hop.symm⟩
  | some n =>
    right
    simp only [bind, Except.bind, hp, ne_eq, not_false_eq_true, reduceCtorEq, ite_true] at hop
    cases hst : store s.heap (some n) (fun x => { x with previous := e.previous }) with
    | error err => simp [hst] at hop
    | ok h1 =>
      obtain ⟨n1, en, hn1, hlive, hh1⟩ := store_ok hst
      injection hn1 with hn1
      subst hn1
      simp [hst, pure, Except.pure] at hop
      refine ⟨n, en, rfl, hlive, ?_⟩
      rw [← hop, hh1]

theorem link_tail_ok {s s1 : State} {a : Nat} {e : CacheEntry}
    (hop : move_link_tail s (some a) = .ok s1) (ha : s.heap[a]? = some (some e)) :
    (s.cache.tail = none ∧
      s1 = { cache := { s.cache with tail := some a },
             heap := s.heap.set a (some { e with next := none, previous := none }) }) ∨
    (∃ t et, s.cache.tail = some t ∧
      (s.heap.set a (some { e with next := none, previous := some t }))[t]? = some (some et) ∧
      s1 = { cache := { s.cache with tail := some a },
             heap := (s.heap.set a (some { e with next := none, previous := some t })).set t
               (some { et with next := some a }) }) := by
  unfold move_link_tail at hop
  have h3 := store_live ha (fun x => { x with next := none })
  have h3a : (s.heap.set a (some { e with next := none }))[a]? = some (some { e with next := none }) :=
    get_set_same ha
  have h4 := store_live h3a (fun x => { x with previous := s.cache.tail })
  rw [List.set_set] at h4
  simp only [bind, Except.bind, h3, h4] at hop
  cases ht : s.cache.tail with
  | none =>
    left
    simp [ht, pure, Except.pure] at hop
    exact ⟨rfl, hop.symm⟩
  | some t =>
    right
    simp only [ht, ne_eq, not_false_eq_true, reduceCtorEq, ite_true] at hop
    cases hst : store (s.heap.set a (some { e with next := none, previous := some t })) (some t)
        (fun x => { x with next := some a }) with
    | error err => simp [hst] at hop
    | ok h5 =>
      obtain ⟨t1, et, ht1, hlive, hh5⟩ := store_ok hst
      injection ht1 with ht1
      subst ht1
      simp [hst, pure, Except.pure] at hop
      refine ⟨t, et, rfl, hlive, ?_⟩
      rw [← hop, hh5]

theorem lastPtr_of_getLast {q : Ptr} {l : List Nat} {t : Nat} (hl : l.getLast? = some t) :
    lastPtr q l = some t := by
  simp [lastPtr, hl]

theorem move_finish {s1 s2 s3 : State} {P post : List Nat} {a t : Nat} {e : CacheEntry}
    (ha : s1.heap[a]? = some (some e))
    (hP : Lseg s1.heap s1.cache.head none P e.next)
    (hpv : PrevOk s1.heap (lastPtr none P) e.previous)
    (hpost : Lseg s1.heap e.next (some a) post none)
    (haP : a ∉ P) (hapost : a ∉ post) (hnd : (P ++ post).Nodup)
    (htail : s1.cache.tail = some t) (hlast : post.getLast? = some t)
    (h2 : move_unlink_next s1 (some a) = .ok s2)
    (h3 : move_link_tail s2 (some a) = .ok s3) :
    WF s3 (P ++ post ++ [a]) ∧ s3.cache.tail = some a := by
  obtain ⟨hPnd, hpostnd, hdisj⟩ := List.nodup_append.mp hnd
  cases post with
  | nil => simp at hlast
  | cons n post1 =>
    obtain ⟨hnext, en, hn, _, _⟩ := id hpost
    have han : a ≠ n := fun hc => hapost (by simp [hc])
    have hnP : n ∉ P := fun hc => hdisj hc (by simp)
    have hnpost1 : n ∉ post1 := (List.nodup_cons.mp hpostnd).1
    rcases unlink_next_ok h2 ha with ⟨hnone, _⟩ | ⟨n2, en2, hn2, hlive2, hs2⟩
    · rw [hnone] at hnext
      exact absurd hnext (by simp)
    · have hnn : n2 = n := by
        rw [hn2] at hnext
        injection hnext
      subst hnn
      have hen : en2 = en := live_inj hlive2 hn
      subst hen
      rw [hn2] at hpost hP
      have hpost2 := lseg_set_first (lastPtr none P)
        ({ en2 with previous := e.previous }) hpost hnpost1 hn rfl hpv
      have hP2 := lseg_set (some { en2 with previous := e.previous }) hn P _ _ _ hnP hP
      have ha2 : s2.heap[a]? = some (some e) := by
        rw [hs2]
        show (List.set _ n2 _)[a]? = _
        rw [get_set_ne _ han.symm]
        exact ha
      have htail2 : s2.cache.tail = some t := by rw [hs2]; exact htail
      have hhead2 : s2.cache.head = s1.cache.head := by rw [hs2]
      have hheap2 : s2.heap = s1.heap.set n2 (some { en2 with previous := e.previous }) := by
        rw [hs2]
      rw [← hheap2] at hpost2 hP2
      rcases link_tail_ok h3 ha2 with ⟨hnone, _⟩ | ⟨t2, et, ht2, hlivet, hs3⟩
      · rw [hnone] at htail2
        exact absurd htail2 (by simp)
      · have htt : t2 = t := by
          rw [ht2] at htail2
          injection htail2
        subst htt
        have htpost : t2 ∈ n2 :: post1 := List.mem_of_getLast?_eq_some hlast
        have hta : t2 ≠ a := fun hc => hapost (hc ▸ htpost)
        have htP : t2 ∉ P := fun hc => hdisj hc htpost
        obtain ⟨pm, hpm⟩ := List.getLast?_eq_some_iff.mp hlast
        have htpm : t2 ∉ pm := by
          rw [hpm, List.nodup_append] at hpostnd
          intro hc
          exact hpostnd.2.2 hc (by simp)
        have hpost4 := lseg_set (some { e with next := none, previous := some t2 }) ha2
          _ _ _ _ hapost hpost2
        have hP4 := lseg_set (some { e with next := none, previous := some t2 }) ha2
          _ _ _ _ haP hP2
        rw [hpm] at hpost4
        have hpost5 := lseg_set_last ({ et with next := some a }) hpost4 htpm hlivet rfl
        have hP5 := lseg_set (some { et with next := some a }) hlivet _ _ _ _ htP hP4
        rw [← hpm] at hpost5
        have ha5 : s3.heap[a]? = some (some { e with next := none, previous := some t2 }) := by
          rw [hs3]
          show (List.set _ t2 _)[a]? = _
          rw [get_set_ne _ hta]
          exact get_set_same ha2
        have hheap3 : s3.heap = (s2.heap.set a (some { e with next := none, previous := some t2 })).set
            t2 (some { et with next := some a }) := by rw [hs3]
        have hhead3 : s3.cache.head = s1.cache.head := by rw [hs3]; exact hhead2
        have htail3 : s3.cache.tail = some a := by rw [hs3]
        rw [← hheap3] at hpost5 hP5
        refine ⟨⟨?_, ?_, ?_⟩, htail3⟩
        · rw [hhead3, List.append_assoc]
          refine (lseg_append P _ _ _ _).mpr ⟨_, hP5, ?_⟩
          refine (lseg_append _ [a] _ _ _).mpr ⟨_, hpost5, ?_⟩
          rw [lastPtr_of_getLast hlast]
          exact ⟨rfl, _, ha5, Or.inr (Or.inl rfl), rfl⟩
        · rw [List.nodup_append]
          refine ⟨hnd, by simp, ?_⟩
          intro x hx hxa
          simp at hxa
          subst hxa
          rcases List.mem_append.mp hx with hx | hx
          · exact haP hx
          · exact hapost hx
        · intro t1 ht1
          rw [List.getLast?_concat] at ht1
          injection ht1 with ht1
          rw [← ht1]
          exact htail3

theorem move_wf {s s1 : State} {pre post : List Nat} {a : Nat}
    (hwf : WF s (pre ++ a :: post)) (hop : cache_move_to_tail s (some a) = .ok s1) :
    ∃ l1, WF s1 l1 ∧ (l1 = pre ++ post ++ [a] ∨ l1 = post ++ [a]) ∧
      s1.cache.tail = some a := by
  obtain ⟨m, hpre, hrest⟩ := (lseg_append pre (a :: post) _ _ _).mp hwf.seg
  obtain ⟨hm, e, ha, hpv, hpost⟩ := hrest
  subst hm
  have hnd := hwf.nodup
  obtain ⟨hprend, hapostnd, hdisj⟩ := List.nodup_append.mp hnd
  obtain ⟨hapost, hpostnd⟩ := List.nodup_cons.mp hapostnd
  have hapre : a ∉ pre := fun hc => hdisj hc (by simp)
  have hdisj2 : ∀ x ∈ pre, x ∉ post := fun x hx hc => hdisj hx (by simp [hc])
  have hndpp : (pre ++ post).Nodup := by
    rw [List.nodup_append]
    exact ⟨hprend, hpostnd, fun x hx hy => hdisj2 x hx hy⟩
  unfold cache_move_to_tail at hop
  by_cases htl : s.cache.tail = some a
  · rw [if_pos htl] at hop
    injection hop with hop
    subst hop
    have hpostnil : post = [] := by
      cases hpo : post.getLast? with
      | none => exact List.getLast?_eq_none_iff.mp hpo
      | some t =>
        have hl : (pre ++ a :: post).getLast? = some t := by
          cases post with
          | nil => simp at hpo
          | cons b post1 =>
            rw [List.getLast?_append, List.getLast?_cons_cons, hpo]
            rfl
        have := hwf.tail t hl
        rw [htl] at this
        injection this with this
        exact absurd (List.mem_of_getLast?_eq_some hpo) (this ▸ hapost)
    subst hpostnil
    exact ⟨pre ++ [a], hwf, Or.inl (by simp), htl⟩
  · rw [if_neg htl] at hop
    obtain ⟨sa, h1, hop⟩ := bind_ok hop
    obtain ⟨sb, h2, h3⟩ := bind_ok hop
    cases hpo : post.getLast? with
    | none =>
      have hpostnil : post = [] := List.getLast?_eq_none_iff.mp hpo
      subst hpostnil
      exact absurd (hwf.tail a (by simp)) htl
    | some t =>
      have hl : (pre ++ a :: post).getLast? = some t := by
        cases post with
        | nil => simp at hpo
        | cons b post1 =>
          rw [List.getLast?_append, List.getLast?_cons_cons, hpo]
          rfl
      have htail := hwf.tail t hl
      rcases unlink_previous_ok h1 ha with ⟨hnone, hsa⟩ | ⟨b, eb, hb, hlb, hsa⟩
      · have haa : sa.heap[a]? = some (some e) := by rw [hsa]; exact ha
        have hPa : Lseg sa.heap sa.cache.head none [] e.next := by
          rw [hsa]
          rfl
        have hpva : PrevOk sa.heap (lastPtr none []) e.previous := Or.inl hnone
        have hposta : Lseg sa.heap e.next (some a) post none := by rw [hsa]; exact hpost
        have htaila : sa.cache.tail = some t := by rw [hsa]; exact htail
        obtain ⟨hw, ht3⟩ := move_finish haa hPa hpva hposta (by simp) hapost
          (by simpa using hpostnd) htaila hpo h2 h3
        exact ⟨_, hw, Or.inr (by simp), ht3⟩
      · have hbq : lastPtr none pre = some b := by
          rcases hpv with hpv | hpv | ⟨b1, hb1, hd⟩
          · rw [hb] at hpv
            exact absurd hpv (by simp)
          · rw [← hpv, hb]
          · rw [hb] at hb1
            injection hb1 with hb1
            subst hb1
            rw [hd] at hlb
            exact absurd hlb (by simp)
        have hprelast : pre.getLast? = some b := by
          unfold lastPtr at hbq
          cases hg : pre.getLast? with
          | none => rw [hg] at hbq; exact absurd hbq (by simp)
          | some c => rw [hg] at hbq; exact hbq
        obtain ⟨pm, hpm⟩ := List.getLast?_eq_some_iff.mp hprelast
        have hbpre : b ∈ pre := List.mem_of_getLast?_eq_some hprelast
        have hba : b ≠ a := fun hc => hapre (hc ▸ hbpre)
        have hbpost : b ∉ post := hdisj2 b hbpre
        have hbpm : b ∉ pm := by
          rw [hpm, List.nodup_append] at hprend
          intro hc
          exact hprend.2.2 hc (by simp)
        have hheapa : sa.heap = s.heap.set b (some { eb with next := e.next }) := by rw [hsa]
        have haa : sa.heap[a]? = some (some e) := by
          rw [hheapa, get_set_ne _ hba]
          exact ha
        have hPa : Lseg sa.heap sa.cache.head none pre e.next := by
          have hpre1 := hpre
          rw [hpm] at hpre1
          have := lseg_set_last ({ eb with next := e.next }) hpre1 hbpm hlb rfl
          rw [← hpm, ← hheapa] at this
          rw [hsa]
          rw [hsa] at this
          exact this
        have hpva : PrevOk sa.heap (lastPtr none pre) e.previous := by
          rw [hbq, hb]
          exact Or.inr (Or.inl rfl)
        have hposta : Lseg sa.heap e.next (some a) post none := by
          rw [hheapa]
          exact lseg_set _ hlb _ _ _ _ hbpost hpost
        have htaila : sa.cache.tail = some t := by rw [hsa]; exact htail
        obtain ⟨hw, ht3⟩ := move_finish haa hPa hpva hposta hapre hapost hndpp htaila hpo h2 h3
        exact ⟨_, hw, Or.inl rfl, ht3⟩

theorem move_data {s s1 : State} {p : Ptr} (hop : cache_move_to_tail s p = .ok s1) :
    (∀ x, data s1.heap x = data s.heap x) ∧ s1.heap.length = s.heap.length ∧
      s1.cache.size = s.cache.size ∧ s1.cache.max_size = s.cache.max_size := by
  unfold cache_move_to_tail at hop
  by_cases htl : s.cache.tail = p
  · rw [if_pos htl] at hop
    injection hop with hop
    subst hop
    exact ⟨fun _ => rfl, rfl, rfl, rfl⟩
  · rw [if_neg htl] at hop
    obtain ⟨sa, h1, hop⟩ := bind_ok hop
    obtain ⟨sb, h2, h3⟩ := bind_ok hop
    obtain ⟨e, hl⟩ : ∃ e, load s.heap p = .ok e := by
      unfold move_unlink_previous at h1
      obtain ⟨e, he, _⟩ := bind_ok h1
      exact ⟨e, he⟩
    obtain ⟨a, hp, ha⟩ := load_ok hl
    subst hp
    have A : (∀ x, data sa.heap x = data s.heap x) ∧ sa.heap.length = s.heap.length ∧
        sa.cache.size = s.cache.size ∧ sa.cache.max_size = s.cache.max_size := by
      rcases unlink_previous_ok h1 ha with ⟨_, hsa⟩ | ⟨b, eb, _, hlb, hsa⟩
      · rw [hsa]
        exact ⟨fun _ => rfl, rfl, rfl, rfl⟩
      · rw [hsa]
        exact ⟨fun x => data_set hlb (by rfl) (by rfl) x, by simp, rfl, rfl⟩
    obtain ⟨e2, hl2⟩ : ∃ e, load sa.heap (some a) = .ok e := by
      unfold move_unlink_next at h2
      obtain ⟨e, he, _⟩ := bind_ok h2
      exact ⟨e, he⟩
    obtain ⟨a2, hp2, ha2⟩ := load_ok hl2
    injection hp2 with hp2
    subst hp2
    have B : (∀ x, data sb.heap x = data sa.heap x) ∧ sb.heap.length = sa.heap.length ∧
        sb.cache.size = sa.cache.size ∧ sb.cache.max_size = sa.cache.max_size := by
      rcases unlink_next_ok h2 ha2 with ⟨_, hsb⟩ | ⟨b, eb, _, hlb, hsb⟩
      · rw [hsb]
        exact ⟨fun _ => rfl, rfl, rfl, rfl⟩
      · rw [hsb]
        exact ⟨fun x => data_set hlb (by rfl) (by rfl) x, by simp, rfl, rfl⟩
    obtain ⟨h3x, hl3⟩ : ∃ hh, store sb.heap (some a) (fun x => { x with next := none }) = .ok hh := by
      unfold move_link_tail at h3
      obtain ⟨hh, he, _⟩ := bind_ok h3
      exact ⟨hh, he⟩
    obtain ⟨a3, e3, hp3, ha3, _⟩ := store_ok hl3
    injection hp3 with hp3
    subst hp3
    have C : (∀ x, data s1.heap x = data sb.heap x) ∧ s1.heap.length = sb.heap.length ∧
        s1.cache.size = sb.cache.size ∧ s1.cache.max_size = sb.cache.max_size := by
      rcases link_tail_ok h3 ha3 with ⟨_, hs1⟩ | ⟨t, et, _, hlt, hs1⟩
      · rw [hs1]
        exact ⟨fun x => data_set ha3 (by rfl) (by rfl) x, by simp, rfl, rfl⟩
      · rw [hs1]
        refine ⟨fun x => ?_, by simp, rfl, rfl⟩
        show data (List.set _ t _) x = _
        rw [data_set hlt (by rfl) (by rfl) x]
        exact data_set ha3 (by rfl) (by rfl) x
    refine ⟨fun x => ?_, ?_, ?_, ?_⟩
    · rw [C.1, B.1, A.1]
    · rw [C.2.1, B.2.1, A.2.1]
    · rw [C.2.2.1, B.2.2.1, A.2.2.1]
    · rw [C.2.2.2, B.2.2.2, A.2.2.2]

theorem contains_loop_spec {s : State} (k : Int) :
    ∀ (l : List Nat) (p q : Ptr) (fuel : Nat), Lseg s.heap p q l none → l.length ≤ fuel →
      ∀ v s1, cache_contains_loop s k fuel p = .ok (v, s1) →
      (v = -1 ∧ s1 = s ∧ ∀ a ∈ l, ∀ e, s.heap[a]? = some (some e) → e.number ≠ k) ∨
      (∃ l1 a l2 e e1, l = l1 ++ a :: l2 ∧ s.heap[a]? = some (some e) ∧ e.number = k ∧
        (∀ x ∈ l1, ∀ ex, s.heap[x]? = some (some ex) → ex.number ≠ k) ∧
        cache_move_to_tail s (some a) = .ok s1 ∧ s1.heap[a]? = some (some e1) ∧
        v = e1.steps) := by
  intro l
  induction l with
  | nil =>
    intro p q fuel hs _ v s1 hop
    have hp : p = none := hs
    subst hp
    left
    cases fuel <;> simp [cache_contains_loop] at hop <;>
      exact ⟨hop.1.symm, hop.2.symm, fun a ha => by simp at ha⟩
  | cons a l ih =>
    intro p q fuel hs hlen v s1 hop
    obtain ⟨hp, e, ha, _, hrest⟩ := hs
    subst hp
    cases fuel with
    | zero => simp at hlen
    | succ fuel =>
      simp only [cache_contains_loop, load_live ha, bind, Except.bind] at hop
      by_cases hk : e.number = k
      · right
        rw [if_pos hk] at hop
        cases hmv : cache_move_to_tail s (some a) with
        | error err => simp [hmv] at hop
        | ok s2 =>
          simp only [hmv] at hop
          cases hld : load s2.heap (some a) with
          | error err => simp [hld] at hop
          | ok e1 =>
            simp only [hld, pure, Except.pure] at hop
            injection hop with hop
            injection hop with hv hs2
            obtain ⟨a1, ha1, hl1⟩ := load_ok hld
            injection ha1 with ha1
            subst ha1 hs2
            exact ⟨[], a, l, e, e1, rfl, ha, hk, fun x hx => by simp at hx, hmv, hl1, hv.symm⟩
      · rw [if_neg hk] at hop
        rcases ih _ _ fuel hrest (by simpa using hlen) v s1 hop with
          ⟨hv, hs1, hall⟩ | ⟨l1, b, l2, eb, e1, hl, hb, hbk, hall, hmv, hb1, hv⟩
        · left
          refine ⟨hv, hs1, ?_⟩
          intro x hx ex hex
          rcases List.mem_cons.mp hx with hxa | hxl
          · subst hxa
            rw [live_inj hex ha]
            exact hk
          · exact hall x hxl ex hex
        · right
          refine ⟨a :: l1, b, l2, eb, e1, by simp [hl], hb, hbk, ?_, hmv, hb1, hv⟩
          intro x hx ex hex
          rcases List.mem_cons.mp hx with hxa | hxl
          · subst hxa
            rw [live_inj hex ha]
            exact hk
          · exact hall x hxl ex hex

theorem advance_spec {h : Heap} :
    ∀ (i : Nat) (l : List Nat) (p q c : Ptr), Lseg h p q l none → advance h i p = .ok c →
      ∃ pre post, l = pre ++ post ∧ pre.length = i ∧ Lseg h p q pre c ∧
        Lseg h c (lastPtr q pre) post none := by
  intro i
  induction i with
  | zero =>
    intro l p q c hs hadv
    simp [advance] at hadv
    subst hadv
    exact ⟨[], l, rfl, rfl, rfl, hs⟩
  | succ i ih =>
    intro l p q c hs hadv
    simp only [advance] at hadv
    obtain ⟨e, hld, hadv⟩ := bind_ok hadv
    obtain ⟨a, hp, ha⟩ := load_ok hld
    subst hp
    obtain ⟨l1, hl1⟩ := lseg_head_some hs
    subst hl1
    obtain ⟨_, e1, ha1, hpv, hrest⟩ := hs
    have hee : e1 = e := live_inj ha1 ha
    subst hee
    obtain ⟨pre, post, hl, hlen, hpre, hpost⟩ := ih l1 _ _ c hrest hadv
    refine ⟨a :: pre, post, by simp [hl], by simp [hlen], ⟨rfl, e1, ha, hpv, hpre⟩, ?_⟩
    rw [lastPtr_cons]
    exact hpost

theorem free_ok {h h1 : Heap} {a : Nat} (hf : free h (some a) = .ok h1) :
    ∃ e, h[a]? = some (some e) ∧ h1 = h.set a none := by
  cases hh : h[a]? with
  | none => simp [free, hh] at hf
  | some c =>
    cases c with
    | none => simp [free, hh] at hf
    | some e1 =>
      simp [free, hh] at hf
      exact ⟨e1, rfl, hf.symm⟩

theorem data_set_none {h : Heap} {a x : Nat} (hax : a ≠ x) :
    data (h.set a none) x = data h x := by
  unfold data
  rw [get_set_ne _ hax]

theorem random_unlink_spec {s s1 : State} {pre post : List Nat} {a : Nat}
    (hwf : WF s (pre ++ a :: post)) (hop : random_unlink s (some a) = .ok s1) :
    ∃ e, s.heap[a]? = some (some e) ∧ s1.heap[a]? = some (some e) ∧
      Lseg s1.heap s1.cache.head none (pre ++ post) none ∧
      s1.cache.tail = s.cache.tail ∧ s1.cache.size = s.cache.size ∧
      s1.cache.max_size = s.cache.max_size ∧ s1.heap.length = s.heap.length ∧
      (∀ x, data s1.heap x = data s.heap x) ∧
      (∀ b, pre.getLast? = some b → e.previous = some b) := by
  obtain ⟨m, hpre, hrest⟩ := (lseg_append pre (a :: post) _ _ _).mp hwf.seg
  obtain ⟨hm, e, ha, hpv, hpost⟩ := hrest
  subst hm
  have hnd := hwf.nodup
  obtain ⟨hprend, hapostnd, hdisj⟩ := List.nodup_append.mp hnd
  obtain ⟨hapost, hpostnd⟩ := List.nodup_cons.mp hapostnd
  have hapre : a ∉ pre := fun hc => hdisj hc (by simp)
  have hdisj2 : ∀ x ∈ pre, x ∉ post := fun x hx hc => hdisj hx (by simp [hc])
  refine ⟨e, ha, ?_⟩
  unfold random_unlink at hop
  cases pre with
  | nil =>
    have hhead : s.cache.head = some a := hpre
    rw [if_pos hhead.symm, load_live ha] at hop
    cases post with
    | nil =>
      have hnext : e.next = none := hpost
      simp [bind, Except.bind, hnext, pure, Except.pure] at hop
      subst hop
      exact ⟨ha, rfl, rfl, rfl, rfl, rfl, fun _ => rfl, fun b hb => by simp at hb⟩
    | cons n post1 =>
      obtain ⟨hnext, en, hn, _, _⟩ := id hpost
      have hnpost1 : n ∉ post1 := (List.nodup_cons.mp hpostnd).1
      have han : a ≠ n := fun hc => hapost (by simp [hc])
      simp [bind, Except.bind, hnext, store_live hn, pure, Except.pure] at hop
      subst hop
      refine ⟨?_, ?_, rfl, rfl, rfl, by simp, fun x => data_set hn (by rfl) (by rfl) x,
        fun b hb => by simp at hb⟩
      · show (List.set _ n _)[a]? = _
        rw [get_set_ne _ han.symm]
        exact ha
      · rw [hnext] at hpost
        exact lseg_set_first (none) ({ en with previous := none }) hpost hnpost1 hn
          rfl (Or.inl rfl)
  | cons c pre1 =>
    have hhead : s.cache.head = some c := hpre.1
    have hca : c ≠ a := fun hc => hapre (by simp [hc])
    have hne : ¬ (some a = s.cache.head) := by
      rw [hhead]
      intro hc
      injection hc with hc
      exact hca hc.symm
    rw [if_neg hne, load_live ha] at hop
    obtain ⟨c0, hc0, hop⟩ := bind_ok hop
    injection hc0 with hc0
    subst hc0
    obtain ⟨h1, hst, hop⟩ := bind_ok hop
    obtain ⟨b, eb, hb, hlb, hh1⟩ := store_ok hst
    have hbq : lastPtr none (c :: pre1) = some b := by
      rcases hpv with hpv | hpv | ⟨b1, hb1, hd⟩
      · rw [hb] at hpv
        exact absurd hpv (by simp)
      · rw [← hpv, hb]
      · rw [hb] at hb1
        injection hb1 with hb1
        subst hb1
        rw [hd] at hlb
        exact absurd hlb (by simp)
    have hprelast : (c :: pre1).getLast? = some b := by
      unfold lastPtr at hbq
      cases hg : (c :: pre1).getLast? with
      | none => rw [hg] at hbq; exact absurd hbq (by simp)
      | some d => rw [hg] at hbq; exact hbq
    obtain ⟨pm, hpm⟩ := List.getLast?_eq_some_iff.mp hprelast
    have hbpre : b ∈ c :: pre1 := List.mem_of_getLast?_eq_some hprelast
    have hba : b ≠ a := fun hc => hapre (hc ▸ hbpre)
    have hbpost : b ∉ post := hdisj2 b hbpre
    have hbpm : b ∉ pm := by
      rw [hpm, List.nodup_append] at hprend
      intro hc
      exact hprend.2.2 hc (by simp)
    have ha1 : h1[a]? = some (some e) := by
      rw [hh1, get_set_ne _ hba]
      exact ha
    have hP1 : Lseg h1 s.cache.head none (c :: pre1) e.next := by
      have hpre1 := hpre
      rw [hpm] at hpre1
      have := lseg_set_last ({ eb with next := e.next }) hpre1 hbpm hlb rfl
      rw [← hpm, ← hh1] at this
      exact this
    have hpost1 : Lseg h1 e.next (some a) post none := by
      rw [hh1]
      exact lseg_set _ hlb _ _ _ _ hbpost hpost
    have hdata1 : ∀ x, data h1 x = data s.heap x := by
      intro x
      rw [hh1]
      exact data_set hlb (by rfl) (by rfl) x
    have hlen1 : h1.length = s.heap.length := by rw [hh1]; simp
    have hprevlast : ∀ b1, (c :: pre1).getLast? = some b1 → e.previous = some b1 := by
      intro b1 hb1
      rw [hprelast] at hb1
      injection hb1 with hb1
      rw [← hb1]
      exact hb
    rw [load_live ha1] at hop
    cases post with
    | nil =>
      have hnext : e.next = none := hpost
      simp [bind, Except.bind, hnext, pure, Except.pure] at hop
      subst hop
      refine ⟨ha1, ?_, rfl, rfl, rfl, hlen1, hdata1, hprevlast⟩
      rw [hnext] at hP1
      simpa using hP1
    | cons n post2 =>
      obtain ⟨hnext, en, hn, _, _⟩ := id hpost1
      have hnpost2 : n ∉ post2 := (List.nodup_cons.mp hpostnd).1
      have han : a ≠ n := fun hc => hapost (by simp [hc])
      have hnpre : n ∉ c :: pre1 := fun hc => hdisj2 n hc (by simp)
      simp [bind, Except.bind, hnext, store_live hn, pure, Except.pure] at hop
      subst hop
      refine ⟨?_, ?_, rfl, rfl, rfl, by simp [hlen1], ?_, hprevlast⟩
      · show (List.set _ n _)[a]? = _
        rw [get_set_ne _ han.symm]
        exact ha1
      · show Lseg (List.set h1 n _) s.cache.head none (c :: pre1 ++ n :: post2) none
        refine (lseg_append (c :: pre1) _ _ _ _).mpr ⟨some n, ?_, ?_⟩
        · rw [hnext] at hP1
          exact lseg_set _ hn _ _ _ _ hnpre hP1
        · rw [hnext] at hpost1
          rw [hbq]
          refine lseg_set_first (some b) ({ en with previous := e.previous })
            hpost1 hnpost2 hn rfl ?_
          rw [hb]
          exact Or.inr (Or.inl rfl)
      · intro x
        show data (List.set h1 n _) x = _
        rw [data_set hn (by rfl) (by rfl) x]
        exact hdata1 x

theorem random_wf {s s1 : State} {l : List Nat} (rand : Nat) (hwf : WF s l)
    (hop : random_eviction rand s = .ok s1) :
    (s.cache.size = 0 ∧ s1 = s) ∨
    (s.cache.size ≠ 0 ∧ ∃ pre a post, l = pre ++ a :: post ∧
      pre.length = (Int.tmod (rand : Int) s.cache.size).toNat ∧
      WF s1 (pre ++ post) ∧ s1.cache.size = s.cache.size - 1 ∧
      s1.cache.max_size = s.cache.max_size ∧ s1.heap.length = s.heap.length ∧
      (∀ x ∈ pre ++ post, data s1.heap x = data s.heap x)) := by
  unfold random_eviction at hop
  by_cases hsz : s.cache.size = 0
  · rw [if_pos hsz] at hop
    injection hop with hop
    exact Or.inl ⟨hsz, hop.symm⟩
  · right
    rw [if_neg hsz] at hop
    obtain ⟨c, hadv, hop1⟩ := bind_ok hop
    obtain ⟨sa, h1, hop2⟩ := bind_ok hop1
    obtain ⟨sb, h2, hop3⟩ := bind_ok hop2
    obtain ⟨hf, h3, hop4⟩ := bind_ok hop3
    clear hop hop1 hop2 hop3
    obtain ⟨pre, post0, hl, hlen, _, hpost0⟩ := advance_spec _ l _ _ c hwf.seg hadv
    cases c with
    | none =>
      unfold random_unlink at h1
      split at h1 <;> simp [load, bind, Except.bind] at h1
    | some a =>
      obtain ⟨post, hpost⟩ := lseg_head_some hpost0
      subst hpost
      subst hl
      obtain ⟨e, ha, ha1, hseg1, htail1, hsize1, hmax1, hlen1, hdata1, hprev⟩ :=
        random_unlink_spec hwf h1
      have hnd := hwf.nodup
      obtain ⟨hprend, hapostnd, hdisj⟩ := List.nodup_append.mp hnd
      obtain ⟨hapost, hpostnd⟩ := List.nodup_cons.mp hapostnd
      have hapre : a ∉ pre := fun hc => hdisj hc (by simp)
      have hndpp : (pre ++ post).Nodup := by
        rw [List.nodup_append]
        exact ⟨hprend, hpostnd, fun x hx hy => hdisj hx (by simp [hy])⟩
      have hnotin : a ∉ pre ++ post := by
        intro hc
        rcases List.mem_append.mp hc with hc | hc
        · exact hapre hc
        · exact hapost hc
      have hb : sb.heap = sa.heap ∧ sb.cache.head = sa.cache.head ∧
          sb.cache.size = sa.cache.size ∧ sb.cache.max_size = sa.cache.max_size ∧
          (∀ t, (pre ++ post).getLast? = some t → sb.cache.tail = some t) := by
        unfold random_fix_tail at h2
        by_cases hta : some a = sa.cache.tail
        · rw [if_pos hta, load_live ha1] at h2
          simp [bind, Except.bind, pure, Except.pure] at h2
          subst h2
          refine ⟨rfl, rfl, rfl, rfl, ?_⟩
          intro t ht
          have hpostnil : post = [] := by
            cases hpo : post.getLast? with
            | none => exact List.getLast?_eq_none_iff.mp hpo
            | some t1 =>
              have hl : (pre ++ a :: post).getLast? = some t1 := by
                cases post with
                | nil => simp at hpo
                | cons b post1 =>
                  rw [List.getLast?_append, List.getLast?_cons_cons, hpo]
                  rfl
              have := hwf.tail t1 hl
              rw [← htail1, ← hta] at this
              injection this with this
              exact absurd (List.mem_of_getLast?_eq_some hpo) (this ▸ hapost)
          subst hpostnil
          simp only [List.append_nil] at ht
          exact hprev t ht
        · rw [if_neg hta] at h2
          simp [pure, Except.pure] at h2
          subst h2
          refine ⟨rfl, rfl, rfl, rfl, ?_⟩
          intro t ht
          cases post with
          | nil =>
            exact absurd (htail1.trans (hwf.tail a (by simp))).symm hta
          | cons b post1 =>
            have hl : (pre ++ a :: b :: post1).getLast? = some t := by
              rw [List.getLast?_append, List.getLast?_cons_cons]
              rw [List.getLast?_append] at ht
              exact ht
            rw [htail1]
            exact hwf.tail t hl
      obtain ⟨hheapb, hheadb, hsizeb, hmaxb, htailb⟩ := hb
      obtain ⟨e2, ha2, hhf⟩ := free_ok h3
      simp [pure, Except.pure] at hop4
      subst hop4
      refine ⟨hsz, pre, a, post, rfl, hlen, ⟨?_, hndpp, htailb⟩, ?_, ?_, ?_, ?_⟩
      · show Lseg hf sb.cache.head none (pre ++ post) none
        rw [hhf, hheadb]
        refine lseg_set none ha2 _ _ _ _ hnotin ?_
        rw [hheapb]
        exact hseg1
      · show sb.cache.size - 1 = _
        rw [hsizeb, hsize1]
      · show sb.cache.max_size = _
        rw [hmaxb, hmax1]
      · show hf.length = _
        rw [hhf, List.length_set, hheapb, hlen1]
      · intro x hx
        show data hf x = _
        have hax : a ≠ x := fun hc => hnotin (hc ▸ hx)
        rw [hhf, data_set_none hax, hheapb]
        exact hdata1 x

theorem wf_length {s : State} {l : List Nat} (hwf : WF s l) : l.length ≤ s.heap.length := by
  have hsub : l.toFinset ⊆ Finset.range s.heap.length := by
    intro x hx
    rw [List.mem_toFinset] at hx
    exact Finset.mem_range.mpr (lseg_lt hwf.seg x hx)
  have := Finset.card_le_card hsub
  rw [List.toFinset_card_of_nodup hwf.nodup, Finset.card_range] at this
  exact this

theorem chain_from_eq {h : Heap} :
    ∀ (l : List Nat) (p q : Ptr) (fuel : Nat), Lseg h p q l none → l.length ≤ fuel →
      chain_from h fuel p = l := by
  intro l
  induction l with
  | nil =>
    intro p q fuel hs _
    have hp : p = none := hs
    subst hp
    cases fuel <;> rfl
  | cons a l ih =>
    intro p q fuel hs hlen
    obtain ⟨hp, e, ha, _, hrest⟩ := hs
    subst hp
    cases fuel with
    | zero => simp at hlen
    | succ fuel =>
      simp only [chain_from, ha]
      rw [ih _ _ fuel hrest (by simpa using hlen)]

theorem kv_cons_live {h : Heap} {a : Nat} {e : CacheEntry} (l : List Nat)
    (ha : h[a]? = some (some e)) : kv h (a :: l) = (e.number, e.steps) :: kv h l := by
  simp [kv, List.filterMap_cons, data_live ha]

theorem entries_eq_kv {s : State} {l : List Nat} (hwf : WF s l) :
    (entries s).map (fun e => (e.number, e.steps)) = kv s.heap l := by
  unfold entries
  rw [chain_from_eq l _ _ _ hwf.seg (wf_length hwf)]
  have hlive := lseg_live l _ _ _ hwf.seg
  clear hwf
  induction l with
  | nil => rfl
  | cons a l ih =>
    obtain ⟨e, he⟩ := hlive a (by simp)
    have ih1 := ih (fun x hx => hlive x (by simp [hx]))
    have hj : (fun a => (s.heap[a]?).join) a = some e := by
      show (s.heap[a]?).join = some e
      rw [he]
      rfl
    rw [List.filterMap_cons_some (f := fun a => (s.heap[a]?).join) hj, List.map_cons, ih1,
      kv_cons_live l he]

theorem keys_eq_kv {s : State} {l : List Nat} (hwf : WF s l) :
    keys s = (kv s.heap l).map Prod.fst := by
  rw [← entries_eq_kv hwf]
  simp [keys, List.map_map, Function.comp_def]

theorem kv_append (h : Heap) (l1 l2 : List Nat) : kv h (l1 ++ l2) = kv h l1 ++ kv h l2 := by
  simp [kv, List.filterMap_append]

theorem kv_congr {h h1 : Heap} {l : List Nat} (hd : ∀ x ∈ l, data h1 x = data h x) :
    kv h1 l = kv h l := by
  induction l with
  | nil => rfl
  | cons a l ih =>
    simp only [kv, List.filterMap_cons, hd a (by simp)]
    have := ih (fun x hx => hd x (by simp [hx]))
    simp only [kv] at this
    rw [this]

theorem evict_spec {s s1 : State} {l : List Nat} (p : Policy) (rand : Nat) (hwf : WF s l)
    (hop : p.eviction rand s = .ok s1) :
    ∃ l1, WF s1 l1 ∧ l1.Sublist l ∧ s1.cache.max_size = s.cache.max_size ∧
      s1.heap.length = s.heap.length ∧ (∀ x ∈ l1, data s1.heap x = data s.heap x) ∧
      (s.cache.size ≠ 0 → l ≠ [] → s1.cache.size = s.cache.size - 1) := by
  have hro : cache_remove_oldest s = .ok s1 → ∃ l1, WF s1 l1 ∧ l1.Sublist l ∧
      s1.cache.max_size = s.cache.max_size ∧
      s1.heap.length = s.heap.length ∧ (∀ x ∈ l1, data s1.heap x = data s.heap x) ∧
      (s.cache.size ≠ 0 → l ≠ [] → s1.cache.size = s.cache.size - 1) := by
    intro h
    obtain ⟨s2, hs2, hw, hmax, hsz, hlen, hd⟩ := remove_oldest_wf hwf
    rw [h] at hs2
    injection hs2 with hs2
    subst hs2
    refine ⟨l.tail, hw, List.tail_sublist l, hmax, hlen, ?_, ?_⟩
    · intro x hx
      unfold data
      rw [hd x hx]
    · intro _ hl
      rw [hsz, if_neg hl]
  cases p with
  | LRU => exact hro hop
  | FIFO => exact hro hop
  | RR =>
    rcases random_wf rand hwf hop with ⟨h0, hs⟩ | ⟨_, pre, a, post, hl, _, hw, hsz, hmax, hlen, hd⟩
    · subst hs
      exact ⟨l, hwf, List.Sublist.refl l, rfl, rfl, fun _ _ => rfl, fun hc => absurd h0 hc⟩
    · refine ⟨pre ++ post, hw, ?_, hmax, hlen, hd, fun _ _ => hsz⟩
      rw [hl]
      exact List.Sublist.append_left (List.sublist_cons_self a post) pre

theorem contains_spec {s s1 : State} {l : List Nat} {k v : Int} (hwf : WF s l)
    (hop : cache_contains s k = .ok (v, s1)) :
    (v = -1 ∧ s1 = s ∧ ∀ a ∈ l, ∀ e, s.heap[a]? = some (some e) → e.number ≠ k) ∨
    (∃ pre a post e l1, l = pre ++ a :: post ∧ s.heap[a]? = some (some e) ∧ e.number = k ∧
      (∀ x ∈ pre, ∀ ex, s.heap[x]? = some (some ex) → ex.number ≠ k) ∧
      cache_move_to_tail s (some a) = .ok s1 ∧ v = e.steps ∧
      WF s1 l1 ∧ (l1 = pre ++ post ++ [a] ∨ l1 = post ++ [a]) ∧ s1.cache.tail = some a ∧
      (∀ x, data s1.heap x = data s.heap x) ∧ s1.heap.length = s.heap.length ∧
      s1.cache.size = s.cache.size ∧ s1.cache.max_size = s.cache.max_size) := by
  unfold cache_contains at hop
  rcases contains_loop_spec k l _ _ _ hwf.seg (wf_length hwf) v s1 hop with
    h | ⟨pre, a, post, e, e1, hl, ha, hk, hall, hmv, ha1, hv⟩
  · exact Or.inl h
  · right
    subst hl
    obtain ⟨l1, hw, hshape, htail⟩ := move_wf hwf hmv
    obtain ⟨hd, hlen, hsz, hmax⟩ := move_data hmv
    have hst : e1.steps = e.steps := by
      have := hd a
      rw [data_live ha1, data_live ha] at this
      injection this with this
      injection this
    exact ⟨pre, a, post, e, l1, rfl, ha, hk, hall, hmv, hv.trans hst, hw, hshape, htail, hd,
      hlen, hsz, hmax⟩

theorem sizeInv_create (m : Int) (hm : 1 ≤ m) : SizeInv (create_cache m) m := by
  refine ⟨[], ⟨rfl, List.nodup_nil, fun t ht => by simp at ht⟩, le_refl _, ?_, rfl, fun _ => rfl⟩
  show (0 : Int) ≤ m
  omega

theorem sizeInv_insert {s s1 : State} {m : Int} (p : Policy) (number steps : Int) (rand : Nat)
    (hm : 1 ≤ m) (hinv : SizeInv s m)
    (hop : cache_insert s number steps (p.eviction rand) = .ok s1) : SizeInv s1 m := by
  obtain ⟨l, hwf, h0, hle, hmax, hnil⟩ := hinv
  unfold cache_insert at hop
  by_cases hfull : s.cache.size = s.cache.max_size
  · rw [if_pos hfull] at hop
    obtain ⟨sa, hev, hlink⟩ := bind_ok hop
    obtain ⟨la, hwa, _, hmaxa, _, _, hsza⟩ := evict_spec p rand hwf hev
    have hsne : s.cache.size ≠ 0 := by omega
    have hlne : l ≠ [] := fun hc => hsne (hnil hc)
    have hsa := hsza hsne hlne
    obtain ⟨s2, hs2, hw2, hsz2, hmax2, _, _, _⟩ := insert_link_wf number steps hwa
    rw [hlink] at hs2
    injection hs2 with hs2
    subst hs2
    refine ⟨_, hw2, by omega, by omega, by omega, ?_⟩
    intro hc
    simp at hc
  · rw [if_neg hfull] at hop
    obtain ⟨s2, hs2, hw2, hsz2, hmax2, _, _, _⟩ := insert_link_wf number steps hwf
    rw [hop] at hs2
    injection hs2 with hs2
    subst hs2
    refine ⟨_, hw2, by omega, by omega, by omega, ?_⟩
    intro hc
    simp at hc

theorem sizeInv_contains {s s1 : State} {m : Int} {k v : Int} (hinv : SizeInv s m)
    (hop : cache_contains s k = .ok (v, s1)) : SizeInv s1 m := by
  obtain ⟨l, hwf, h0, hle, hmax, hnil⟩ := hinv
  rcases contains_spec hwf hop with ⟨_, hs, _⟩ |
    ⟨pre, a, post, e, l1, _, _, _, _, _, _, hw1, hshape, _, _, _, hsz, hmax1⟩
  · subst hs
    exact ⟨l, hwf, h0, hle, hmax, hnil⟩
  · refine ⟨l1, hw1, by omega, by omega, by omega, ?_⟩
    intro hc
    rcases hshape with h | h <;> rw [h] at hc <;> simp at hc

theorem sizeInv_run {m : Int} (p : Policy) (hm : 1 ≤ m) :
    ∀ (ops : List Op) (s s1 : State), SizeInv s m → run_ops p ops s = .ok s1 → SizeInv s1 m := by
  intro ops
  induction ops with
  | nil =>
    intro s s1 hinv hrun
    simp [run_ops] at hrun
    subst hrun
    exact hinv
  | cons op ops ih =>
    intro s s1 hinv hrun
    simp only [run_ops] at hrun
    cases hstep : op.run p s with
    | error f => simp [hstep] at hrun
    | ok s2 =>
      rw [hstep] at hrun
      refine ih s2 s1 ?_ hrun
      cases op with
      | insert number steps rand => exact sizeInv_insert p number steps rand hm hinv hstep
      | contains number =>
        simp only [Op.run] at hstep
        cases hc : cache_contains s number with
        | error f => simp [hc] at hstep
        | ok r =>
          obtain ⟨v, s3⟩ := r
          simp [hc] at hstep
          subst hstep
          exact sizeInv_contains hinv hc

/-- What holds of C2 on the runs whose calls all return, on the allocation model of
`cache_insert_link`: under every policy and every sequence of `cache_insert` and
`cache_contains` calls on a cache created with `max_size >= 1`, the state reached
satisfies `0 <= size <= max_size`, where `max_size` is still the value given at
creation.  Nothing is said of a run in which a call faults. -/
theorem capacity_bound_when_calls_return (p : Policy) (max_size : Int) (hmax : 1 ≤ max_size)
    (ops : List Op) (s : State) (hrun : run_ops p ops (create_cache max_size) = .ok s) :
    0 ≤ s.cache.size ∧ s.cache.size ≤ s.cache.max_size ∧ s.cache.max_size = max_size := by
  obtain ⟨_, _, h0, hle, hm, _⟩ :=
    sizeInv_run p hmax ops _ s (sizeInv_create max_size hmax) hrun
  exact ⟨h0, hle, hm⟩

theorem run_ops_append (p : Policy) :
    ∀ (o1 o2 : List Op) (s : State),
      run_ops p (o1 ++ o2) s =
        match run_ops p o1 s with
        | .ok s1 => run_ops p o2 s1
        | .error f => .error f := by
  intro o1
  induction o1 with
  | nil => intro o2 s; rfl
  | cons op o1 ih =>
    intro o2 s
    simp only [List.cons_append, run_ops]
    cases op.run p s with
    | error f => rfl
    | ok s1 => exact ih o2 s1

theorem kv_insert_link {s1 s2 : State} {l : List Nat} {number steps : Int} (hwf : WF s1 l)
    (hnew : s2.heap[s1.heap.length]? =
      some (some { number := number, steps := steps, next := none, previous := none }))
    (hd : ∀ x, x < s1.heap.length → data s2.heap x = data s1.heap x) :
    kv s2.heap (l ++ [s1.heap.length]) = kv s1.heap l ++ [(number, steps)] := by
  rw [kv_append, kv_congr (fun x hx => hd x (lseg_lt hwf.seg x hx)), kv_cons_live [] hnew]
  rfl

theorem fill_spec (p : Policy) (C : Int) :
    ∀ kvs : List (Int × Int), (kvs.length : Int) ≤ C →
      ∃ s l, run_ops p (insert_calls kvs) (create_cache C) = .ok s ∧ WF s l ∧
        kv s.heap l = kvs ∧ s.cache.size = kvs.length ∧ s.cache.max_size = C := by
  intro kvs
  induction kvs using List.reverseRecOn with
  | nil =>
    intro _
    exact ⟨create_cache C, [], rfl, ⟨rfl, List.nodup_nil, fun t ht => by simp at ht⟩, rfl, rfl,
      rfl⟩
  | append_singleton init x ih =>
    intro hlen
    simp only [List.length_append, List.length_singleton, Nat.cast_add, Nat.cast_one] at hlen
    obtain ⟨s, l, hrun, hwf, hkv, hsz, hmax⟩ := ih (by omega)
    obtain ⟨s2, hs2, hw2, hsz2, hmax2, _, hnew, hd⟩ := insert_link_wf x.1 x.2 hwf
    have hne : ¬ (s.cache.size = s.cache.max_size) := by omega
    have hins : cache_insert s x.1 x.2 (p.eviction 0) = .ok s2 := by
      unfold cache_insert
      rw [if_neg hne]
      exact hs2
    refine ⟨s2, l ++ [s.heap.length], ?_, hw2, ?_, ?_, by omega⟩
    · unfold insert_calls
      rw [List.map_append, run_ops_append]
      have : run_ops p (List.map (fun x => Op.insert x.1 x.2 0) init) (create_cache C) = .ok s :=
        hrun
      rw [this]
      simp [run_ops, Op.run, hins]
    · rw [kv_insert_link hwf hnew hd, hkv]
    · rw [hsz2, hsz]
      simp

/-- C6 (eviction without lookups): for every capacity `C >= 1`, under LRU and under
FIFO, inserting `C + 1` entries with distinct keys into an empty cache with no lookup in
between returns normally, leaves exactly the last `C` entries in insertion order, leaves
`size = C`, and the first-inserted key is no longer in the cache. -/
theorem eviction_without_lookups (p : Policy) (hp : p = .LRU ∨ p = .FIFO) (C : Nat)
    (hC : 1 ≤ C) (kvs : List (Int × Int)) (hlen : kvs.length = C + 1)
    (hdist : (kvs.map Prod.fst).Nodup) :
    ∃ s, run_ops p (insert_calls kvs) (create_cache C) = .ok s ∧
      (entries s).map (fun e => (e.number, e.steps)) = kvs.tail ∧
      s.cache.size = C ∧ (∀ x ∈ kvs.head?, x.1 ∉ keys s) := by
  rcases List.eq_nil_or_concat kvs with h0 | ⟨init, x, hx⟩
  · rw [h0] at hlen
    simp at hlen
  · have hkvs : kvs = init ++ [x] := by simpa using hx
    subst hkvs
    have hinit : init.length = C := by simpa using hlen
    obtain ⟨s, l, hrun, hwf, hkv, hsz, hmax⟩ := fill_spec p (C : Int) init (by omega)
    have hfull : s.cache.size = s.cache.max_size := by omega
    obtain ⟨s1, hs1, hw1, hmax1, hsz1, hlen1, hheap1⟩ := remove_oldest_wf hwf
    have hev : p.eviction 0 s = .ok s1 := by
      rcases hp with hp | hp <;> subst hp <;> exact hs1
    obtain ⟨s2, hs2, hw2, hsz2, hmax2, _, hnew, hd⟩ := insert_link_wf x.1 x.2 hw1
    have hins : cache_insert s x.1 x.2 (p.eviction 0) = .ok s2 := by
      unfold cache_insert
      rw [if_pos hfull, hev]
      exact hs2
    have hlne : l ≠ [] := by
      intro hc
      rw [hc] at hkv
      rw [← hkv] at hinit
      simp [kv] at hinit
      omega
    have hkv1 : kv s1.heap l.tail = init.tail := by
      cases l with
      | nil => exact absurd rfl hlne
      | cons a l1 =>
        obtain ⟨e, he⟩ := lseg_live _ _ _ _ hwf.seg a (by simp)
        rw [kv_cons_live l1 he] at hkv
        rw [← hkv]
        show kv s1.heap l1 = kv s.heap l1
        refine kv_congr (fun y hy => ?_)
        unfold data
        rw [hheap1 y hy]
    have hentries : (entries s2).map (fun e => (e.number, e.steps)) = (init ++ [x]).tail := by
      rw [entries_eq_kv hw2, kv_insert_link hw1 hnew hd, hkv1]
      cases init with
      | nil => simp at hinit; omega
      | cons y init1 => rfl
    refine ⟨s2, ?_, hentries, ?_, ?_⟩
    · unfold insert_calls
      rw [List.map_append, run_ops_append]
      have : run_ops p (List.map (fun x => Op.insert x.1 x.2 0) init) (create_cache C) = .ok s :=
        hrun
      rw [this]
      simp [run_ops, Op.run, hins]
    · rw [hsz2, hsz1, if_neg hlne, hsz, hinit]
      omega
    · intro y hy
      have hkeys : keys s2 = ((init ++ [x]).tail).map Prod.fst := by
        rw [← hentries]
        simp [keys, List.map_map, Function.comp_def]
      rw [hkeys]
      cases init with
      | nil => simp at hinit; omega
      | cons z init1 =>
        simp only [List.cons_append, List.head?_cons, Option.mem_def, Option.some.injEq] at hy
        subst hy
        simp only [List.cons_append, List.map_cons, List.nodup_cons] at hdist
        exact hdist.1

theorem collatz_loop_ge :
    ∀ (fuel : Nat) (n c v : Int), calculate_collatz_steps_loop fuel n c = .ok v → c ≤ v := by
  intro fuel
  induction fuel with
  | zero =>
    intro n c v h
    simp only [calculate_collatz_steps_loop] at h
    split at h
    · injection h with h
      omega
    · simp at h
  | succ fuel ih =>
    intro n c v h
    simp only [calculate_collatz_steps_loop] at h
    split at h
    · injection h with h
      omega
    · split at h
      · split at h
        · have := ih _ _ _ h
          omega
        · simp at h
      · split at h
        · have := ih _ _ _ h
          omega
        · simp at h

theorem collatz_steps_nonneg {fuel : Nat} {n v : Int}
    (h : calculate_collatz_steps fuel n = .ok v) : 0 ≤ v :=
  collatz_loop_ge fuel n 0 v h

theorem nodup_kv_keys (h : Heap) :
    ∀ l : List Nat, l.Nodup →
      (∀ x ∈ l, ∀ y ∈ l, (data h x).map Prod.fst = (data h y).map Prod.fst → x = y) →
      (∀ x ∈ l, ∃ e, h[x]? = some (some e)) →
      ((kv h l).map Prod.fst).Nodup := by
  intro l
  induction l with
  | nil => intro _ _ _; simp [kv]
  | cons a l ih =>
    intro hnd hinj hlive
    obtain ⟨ha, hl⟩ := List.nodup_cons.mp hnd
    obtain ⟨e, he⟩ := hlive a (by simp)
    rw [kv_cons_live l he, List.map_cons, List.nodup_cons]
    refine ⟨?_, ih hl (fun x hx y hy => hinj x (by simp [hx]) y (by simp [hy]))
      (fun x hx => hlive x (by simp [hx]))⟩
    intro hmem
    obtain ⟨d, hd, hfst⟩ := List.mem_map.mp hmem
    obtain ⟨y, hy, hdy⟩ := List.mem_filterMap.mp hd
    have : a = y := by
      apply hinj a (by simp) y (by simp [hy])
      rw [data_live he, hdy]
      simp [hfst]
    exact ha (this ▸ hy)

theorem keyInv_step {s : State} {r : Lookup} (fuel : Nat) (p : Policy) (k : Int) (rand : Nat)
    (hinv : KeyInv s) (hop : get_steps_with_cache fuel s k (p.eviction rand) = .ok r) :
    KeyInv r.state := by
  obtain ⟨l, hwf, hinj, hsteps⟩ := hinv
  unfold get_steps_with_cache at hop
  obtain ⟨⟨v, s1⟩, hc, hop1⟩ := bind_ok hop
  simp only [] at hop1
  rcases contains_spec hwf hc with ⟨hv, hs, hnot⟩ |
    ⟨pre, a, post, e, l1, hl, ha, hk, _, _, hv, hw1, hshape, _, hd, _, _, _⟩
  · subst hs
    subst hv
    simp only [ne_eq, not_true_eq_false, ite_false] at hop1
    obtain ⟨st, hcalc, hop2⟩ := bind_ok hop1
    obtain ⟨s2, hins, hop3⟩ := bind_ok hop2
    simp [pure, Except.pure] at hop3
    subst hop3
    have hst : 0 ≤ st := collatz_steps_nonneg hcalc
    show KeyInv s2
    have key : ∀ (sa : State) (la : List Nat), WF sa la → (∀ x ∈ la, x ∈ l) →
        (∀ x ∈ la, data sa.heap x = data s1.heap x) →
        cache_insert_link sa k st = .ok s2 → KeyInv s2 := by
      intro sa la hwa hsub hda hlink
      obtain ⟨s3, hs3, hw3, _, _, _, hnew, hd3⟩ := insert_link_wf k st hwa
      rw [hlink] at hs3
      injection hs3 with hs3
      subst hs3
      have hold : ∀ x ∈ la, data s2.heap x = data s1.heap x := by
        intro x hx
        rw [hd3 x (lseg_lt hwa.seg x hx)]
        exact hda x hx
      have hnewd : data s2.heap sa.heap.length = some (k, st) := data_live hnew
      have hkne : ∀ x ∈ la, (data s2.heap x).map Prod.fst ≠ some k := by
        intro x hx hcontra
        obtain ⟨ex, hex⟩ := lseg_live _ _ _ _ hwf.seg x (hsub x hx)
        rw [hold x hx, data_live hex] at hcontra
        simp at hcontra
        exact hnot x (hsub x hx) ex hex hcontra
      refine ⟨_, hw3, ?_, ?_⟩
      · intro x hx y hy hxy
        rcases List.mem_append.mp hx with hx | hx <;> rcases List.mem_append.mp hy with hy | hy
        · rw [hold x hx, hold y hy] at hxy
          exact hinj x (hsub x hx) y (hsub y hy) hxy
        · simp at hy
          subst hy
          rw [hnewd] at hxy
          exact absurd hxy (hkne x hx)
        · simp at hx
          subst hx
          rw [hnewd] at hxy
          exact absurd hxy.symm (hkne y hy)
        · simp at hx hy
          rw [hx, hy]
      · intro x hx d hdx
        rcases List.mem_append.mp hx with hx | hx
        · rw [hold x hx] at hdx
          exact hsteps x (hsub x hx) d hdx
        · simp at hx
          subst hx
          rw [hnewd] at hdx
          injection hdx with hdx
          rw [← hdx]
          show st ≠ -1
          omega
    unfold cache_insert at hins
    by_cases hfull : s1.cache.size = s1.cache.max_size
    · rw [if_pos hfull] at hins
      obtain ⟨sa, hev, hlink⟩ := bind_ok hins
      obtain ⟨la, hwa, hsubl, _, _, hda, _⟩ := evict_spec p rand hwf hev
      exact key sa la hwa (fun x hx => hsubl.subset hx) hda hlink
    · rw [if_neg hfull] at hins
      exact key s1 l hwf (fun x hx => hx) (fun _ _ => rfl) hins
  · have hvne : v ≠ -1 := by
      rw [hv]
      exact hsteps a (by simp [hl]) (e.number, e.steps) (data_live ha)
    simp only [ne_eq, hvne, not_false_eq_true, ite_true, pure, Except.pure] at hop1
    injection hop1 with hop1
    subst hop1
    show KeyInv s1
    have hsub : ∀ x ∈ l1, x ∈ l := by
      intro x hx
      rw [hl]
      rcases hshape with h | h <;> rw [h] at hx <;> simp at hx ⊢ <;> tauto
    refine ⟨l1, hw1, ?_, ?_⟩
    · intro x hx y hy hxy
      rw [hd x, hd y] at hxy
      exact hinj x (hsub x hx) y (hsub y hy) hxy
    · intro x hx d hdx
      rw [hd x] at hdx
      exact hsteps x (hsub x hx) d hdx

theorem keyInv_run (fuel : Nat) (p : Policy) :
    ∀ (calls : List (Int × Nat)) (s s1 : State), KeyInv s →
      run_lookups fuel p calls s = .ok s1 → KeyInv s1 := by
  intro calls
  induction calls with
  | nil =>
    intro s s1 hinv hrun
    simp [run_lookups] at hrun
    subst hrun
    exact hinv
  | cons c calls ih =>
    intro s s1 hinv hrun
    simp only [run_lookups] at hrun
    cases hstep : get_steps_with_cache fuel s c.1 (p.eviction c.2) with
    | error f => simp [hstep] at hrun
    | ok r =>
      rw [hstep] at hrun
      exact ih r.state s1 (keyInv_step fuel p c.1 c.2 hinv hstep) hrun

/-- What holds of C7 on the runs whose calls all return, on the allocation model of
`cache_insert_link`: under every policy, for every capacity and every sequence of
`get_steps_with_cache` calls starting from the empty cache, the entries reachable from
`head` in the state reached have pairwise distinct keys.  Nothing is said of a run in
which a call faults. -/
theorem distinct_keys_when_calls_return (fuel : Nat) (p : Policy) (max_size : Int)
    (calls : List (Int × Nat)) (s : State)
    (hrun : run_lookups fuel p calls (create_cache max_size) = .ok s) :
    (keys s).Nodup := by
  have h0 : KeyInv (create_cache max_size) :=
    ⟨[], ⟨rfl, List.nodup_nil, fun t ht => by simp at ht⟩, fun x hx => by simp at hx,
      fun x hx => by simp at hx⟩
  obtain ⟨l, hwf, hinj, _⟩ := keyInv_run fuel p calls _ s h0 hrun
  rw [keys_eq_kv hwf]
  exact nodup_kv_keys s.heap l hwf.nodup hinj (lseg_live l _ _ _ hwf.seg)

/-- C1 (hit correctness) fails.  Under every policy, with capacity 3: after inserting
the keys 1, 2, 3 (no eviction runs, the cache is never full before an insert) and
looking up key 2, `cache_contains(cache, 1)` returns the miss value -1 although key 1 was
inserted with value 0 and no eviction has removed it. -/
theorem hit_lost_after_interior_lookup (p : Policy) :
    run_ops p [.insert 1 0 0, .insert 2 1 0, .insert 3 7 0] (create_cache 3)
        = .ok three_entries ∧
      cache_contains three_entries 2 = .ok (1, three_entries_after_lookup) ∧
      cache_contains three_entries_after_lookup 1 = .ok (-1, three_entries_after_lookup) := by
  cases p <;> exact ⟨rfl, rfl, rfl⟩

/-- C3 (lookup-or-compute) fails.  Under LRU with capacity 2 the driver processes the
numbers 4, 7, 4, 27; key 4 is then in the cache (the keys reachable from `head` are
4 and 27), yet `get_steps_with_cache(cache, 4, ...)` does not return a hit: it writes
through the dangling `previous` pointer of the entry of key 4. -/
theorem lookup_or_compute_hit_faults :
    run_lookups 200 .LRU [(4, 0), (7, 0), (4, 0), (27, 0)] (create_cache 2)
        = .ok driver_after_four_calls ∧
      keys driver_after_four_calls = [4, 27] ∧
      get_steps_with_cache 200 driver_after_four_calls 4 (Policy.LRU.eviction 0)
        = .error .use_after_free :=
  ⟨rfl, rfl, rfl⟩

/-- C4 (LRU refresh) fails at capacity 2.  After insert 4, insert 7, lookup 4 and
insert 27 the cache holds the keys 4 and 27 and a lookup of 7 misses, as the claim
says; but the looked-up first key is not "still found by lookup": `cache_contains` of
key 4 follows the `previous` pointer of its entry, which still refers to the freed
entry of key 7. -/
theorem lru_refresh_dangling_previous :
    run_ops .LRU [.insert 4 5 0, .insert 7 11 0, .contains 4, .insert 27 111 0]
        (create_cache 2) = .ok refreshed_then_full ∧
      keys refreshed_then_full = [4, 27] ∧
      cache_contains refreshed_then_full 7 = .ok (-1, refreshed_then_full) ∧
      cache_contains refreshed_then_full 27 = .ok (111, refreshed_then_full) ∧
      cache_contains refreshed_then_full 4 = .error .use_after_free :=
  ⟨rfl, rfl, rfl, rfl, rfl⟩

/-- C5 (FIFO eviction order) fails.  Under FIFO with capacity 2, insert 4, insert 7,
lookup 4, insert 27 evicts key 7 and leaves the keys 4 and 27, whereas the same inserts
with no lookup evict the first-inserted key 4 and leave 7 and 27. -/
theorem fifo_lookup_changes_victim :
    run_ops .FIFO [.insert 4 5 0, .insert 7 11 0, .contains 4, .insert 27 111 0]
        (create_cache 2) = .ok refreshed_then_full ∧
      keys refreshed_then_full = [4, 27] ∧
      run_ops .FIFO [.insert 4 5 0, .insert 7 11 0, .insert 27 111 0]
        (create_cache 2) = .ok full_without_lookup ∧
      keys full_without_lookup = [7, 27] :=
  ⟨rfl, rfl, rfl, rfl⟩

/-- C8 (insert contract) fails under the random policy.  With capacity 2 and the
keys 4 and 7 inserted the cache is full; `cache_insert` of the absent key 27 with the
draw 1 selects the entry of key 7, whose `previous` field was never assigned, and
dereferences it: a `NULL` dereference instead of one eviction and one insertion. -/
theorem insert_full_random_null_deref :
    run_ops .RR [.insert 4 5 0, .insert 7 11 0] (create_cache 2) = .ok two_entries ∧
      two_entries.cache.size = two_entries.cache.max_size ∧
      keys two_entries = [4, 7] ∧
      cache_insert two_entries 27 111 (Policy.RR.eviction 1) = .error .null_deref :=
  ⟨rfl, rfl, rfl, rfl⟩

/-- C9 (LRU reposition on hit) fails for an interior entry.  With the keys 1, 2, 3
in the cache, `cache_contains(cache, 2)` returns the stored value 1 and moves key 2 to
the most-recent end, but the older entry of key 1 is no longer in the list: the keys
reachable from `head` are 3 and 2, with `size` still 3. -/
theorem lookup_interior_drops_older :
    keys three_entries = [1, 2, 3] ∧
      cache_contains three_entries 2 = .ok (1, three_entries_after_lookup) ∧
      keys three_entries_after_lookup = [3, 2] ∧
      three_entries_after_lookup.cache.size = 3 :=
  ⟨rfl, rfl, rfl, rfl⟩

/-- C10 (no ordering effect of a lookup under FIFO and random replacement) fails.
Under FIFO and under RR (whatever the draws), with the keys 4 and 7 inserted,
`cache_contains(cache, 4)` changes the order from 4, 7 to 7, 4, and with it the next
victim of `fifo_eviction` (key 4 before the lookup, key 7 after it) and of
`random_eviction` with draw 0. -/
theorem lookup_reorders_under_fifo_and_random (rand : Nat) :
    run_ops .FIFO [.insert 4 5 rand, .insert 7 11 rand] (create_cache 2) = .ok two_entries ∧
      run_ops .RR [.insert 4 5 rand, .insert 7 11 rand] (create_cache 2) = .ok two_entries ∧
      keys two_entries = [4, 7] ∧
      cache_contains two_entries 4 = .ok (5, two_entries_after_lookup) ∧
      keys two_entries_after_lookup = [7, 4] ∧
      (fifo_eviction two_entries).map keys = .ok [7] ∧
      (fifo_eviction two_entries_after_lookup).map keys = .ok [4] ∧
      (random_eviction 0 two_entries).map keys = .ok [7] ∧
      (random_eviction 0 two_entries_after_lookup).map keys = .ok [4] :=
  ⟨rfl, rfl, rfl, rfl, rfl, rfl, rfl, rfl, rfl⟩

/-- Instance of `capacity_bound_when_calls_return`: capacity 2 under LRU, after insert 4, insert 7,
lookup 4, insert 27. -/
theorem capacity_bound_when_calls_return_instance :
    (1 : Int) ≤ 2 ∧
      run_ops .LRU [.insert 4 5 0, .insert 7 11 0, .contains 4, .insert 27 111 0]
        (create_cache 2) = .ok refreshed_then_full ∧
      (0 ≤ refreshed_then_full.cache.size ∧
        refreshed_then_full.cache.size ≤ refreshed_then_full.cache.max_size ∧
        refreshed_then_full.cache.max_size = 2) :=
  ⟨by decide, rfl,
    capacity_bound_when_calls_return .LRU 2 (by decide)
      [.insert 4 5 0, .insert 7 11 0, .contains 4, .insert 27 111 0] refreshed_then_full rfl⟩

/-- Witness for `eviction_without_lookups`: capacity 2 under LRU with the keys
4, 7, 27. -/
theorem eviction_without_lookups_witness :
    (Policy.LRU = .LRU ∨ Policy.LRU = .FIFO) ∧ 1 ≤ 2 ∧
      [((4 : Int), (5 : Int)), (7, 11), (27, 111)].length = 2 + 1 ∧
      ([((4 : Int), (5 : Int)), (7, 11), (27, 111)].map Prod.fst).Nodup ∧
      ∃ s, run_ops .LRU (insert_calls [(4, 5), (7, 11), (27, 111)]) (create_cache (2 : Nat))
          = .ok s ∧
        (entries s).map (fun e => (e.number, e.steps)) = [(4, 5), (7, 11), (27, 111)].tail ∧
        s.cache.size = (2 : Nat) ∧
        (∀ x ∈ [((4 : Int), (5 : Int)), (7, 11), (27, 111)].head?, x.1 ∉ keys s) :=
  ⟨Or.inl rfl, by decide, rfl, by decide,
    eviction_without_lookups .LRU (Or.inl rfl) 2 (by decide) [(4, 5), (7, 11), (27, 111)] rfl
      (by decide)⟩

/-- Instance of `distinct_keys_when_calls_return`: the driver under LRU with capacity 2 on the
numbers 4, 7, 4, 27. -/
theorem distinct_keys_when_calls_return_instance :
    run_lookups 200 .LRU [(4, 0), (7, 0), (4, 0), (27, 0)] (create_cache 2)
        = .ok driver_after_four_calls ∧
      (keys driver_after_four_calls).Nodup :=
  ⟨rfl,
    distinct_keys_when_calls_return 200 .LRU 2 [(4, 0), (7, 0), (4, 0), (27, 0)] driver_after_four_calls rfl⟩

/-- C12 (eviction on an empty cache is a no-op): on a cache with a null `head` and
`size` 0, each of `lru_eviction`, `fifo_eviction` and `random_eviction` (for every
draw) returns normally and leaves the whole state, in particular `head`, `tail`, `size`
and `max_size`, unchanged. -/
theorem eviction_on_empty_is_noop (s : State) (hhead : s.cache.head = none)
    (hsize : s.cache.size = 0) :
    lru_eviction s = .ok s ∧ fifo_eviction s = .ok s ∧
      ∀ rand : Nat, random_eviction rand s = .ok s := by
  refine ⟨?_, ?_, fun rand => ?_⟩
  · simp [lru_eviction, cache_remove_oldest, hhead]
  · simp [fifo_eviction, cache_remove_oldest, hhead]
  · simp [random_eviction, hsize]

/-- Witness for `eviction_on_empty_is_noop`: the cache `create_cache(2)` returns. -/
theorem eviction_on_empty_is_noop_witness :
    (create_cache 2).cache.head = none ∧ (create_cache 2).cache.size = 0 ∧
      (lru_eviction (create_cache 2) = .ok (create_cache 2) ∧
        fifo_eviction (create_cache 2) = .ok (create_cache 2) ∧
        ∀ rand : Nat, random_eviction rand (create_cache 2) = .ok (create_cache 2)) :=
  ⟨rfl, rfl, eviction_on_empty_is_noop (create_cache 2) rfl rfl⟩

/-- C13 (random replacement removes the drawn entry at any position) fails for every
position but the head.  On the cache built by `cache_insert` of the keys 1, 2, 3 the
draw 0 removes the head entry, but the draws 1 (interior entry) and 2 (tail entry) make
`random_eviction` dereference `current->previous`, which `cache_insert` never assigned:
a `NULL` dereference instead of a removal. -/
theorem random_eviction_non_head_null_deref :
    keys three_entries = [1, 2, 3] ∧ three_entries.cache.size = 3 ∧
      (random_eviction 0 three_entries).map keys = .ok [2, 3] ∧
      random_eviction 1 three_entries = .error .null_deref ∧
      random_eviction 2 three_entries = .error .null_deref :=
  ⟨rfl, rfl, rfl, rfl, rfl⟩

/-- C16 (size equals the number of reachable entries) fails.  Under every policy, with
capacity 3: after `cache_insert` of the absent keys 1, 2, 3 and `cache_contains` of key
2, `size` is 3 while only 2 entries are reachable from `head`; the entry of key 1 left
the list without any eviction. -/
theorem size_exceeds_reachable_entries (p : Policy) :
    run_ops p [.insert 1 0 0, .insert 2 1 0, .insert 3 7 0, .contains 2] (create_cache 3)
        = .ok three_entries_after_lookup ∧
      three_entries_after_lookup.cache.size = 3 ∧
      (entries three_entries_after_lookup).length = 2 := by
  cases p <;> exact ⟨rfl, rfl, rfl⟩

/-- C20 (link safety) fails.  Under RR with capacity 2 the driver processes 4, 7 and
then 27 with draw 1: `random_eviction` follows the `NULL` `previous` link of the entry
of key 7.  Under LRU with capacity 2 the driver processes 4, 7, 4, 27, 4: the last call
follows the `previous` link of the entry of key 4, which refers to the entry of key 7
freed by the eviction. -/
theorem links_followed_unsafely :
    run_lookups 200 .RR [(4, 0), (7, 0), (27, 1)] (create_cache 2) = .error .null_deref ∧
      run_lookups 200 .LRU [(4, 0), (7, 0), (4, 0), (27, 0), (4, 0)] (create_cache 2)
        = .error .use_after_free :=
  ⟨rfl, rfl⟩

theorem contains_loop_null (s : State) (k : Int) (fuel : Nat) :
    cache_contains_loop s k fuel none = .ok (-1, s) := by
  cases fuel <;> rfl

/-- C14 (random replacement with a single entry): on a cache whose list is exactly one
entry and whose `size` is 1, `random_eviction` returns normally for every draw, removes
that entry, leaves `size` 0 and a null `head`, and every following lookup misses. -/
theorem random_eviction_single_entry (s : State) (a : Nat) (rand : Nat) (hwf : WF s [a])
    (hsize : s.cache.size = 1) :
    ∃ s1, random_eviction rand s = .ok s1 ∧ s1.cache.size = 0 ∧ s1.cache.head = none ∧
      s1.heap[a]? = some none ∧ entries s1 = [] ∧
      ∀ k, cache_contains s1 k = .ok (-1, s1) := by
  obtain ⟨hhead, e, ha, _, hnext⟩ := hwf.seg
  have hnext1 : e.next = none := hnext
  have htail : s.cache.tail = some a := hwf.tail a rfl
  have hres : random_eviction rand s = .ok
      { cache := { head := none, tail := e.previous, size := 0, max_size := s.cache.max_size },
        heap := s.heap.set a none } := by
    simp [random_eviction, hsize, advance, random_unlink, hhead, load_live ha, hnext1,
      random_fix_tail, htail, free_live ha, bind, Except.bind, pure, Except.pure]
  refine ⟨_, hres, rfl, rfl, get_set_same ha, ?_, fun k => ?_⟩
  · simp [entries, chain_from]
  · exact contains_loop_null _ k _

/-- Witness for `random_eviction_single_entry`: capacity 1 holding the key 4, draw 5. -/
theorem random_eviction_single_entry_witness :
    WF single_entry [0] ∧ single_entry.cache.size = 1 ∧
      ∃ s1, random_eviction 5 single_entry = .ok s1 ∧ s1.cache.size = 0 ∧
        s1.cache.head = none ∧ s1.heap[0]? = some none ∧ entries s1 = [] ∧
        ∀ k, cache_contains s1 k = .ok (-1, s1) :=
  ⟨⟨⟨rfl, _, rfl, Or.inl rfl, rfl⟩, by simp, fun t ht => by simp at ht; simp [single_entry, ht]⟩,
    rfl,
    random_eviction_single_entry single_entry 0 5
      ⟨⟨rfl, _, rfl, Or.inl rfl, rfl⟩, by simp,
        fun t ht => by simp at ht; simp [single_entry, ht]⟩ rfl⟩

theorem exact_loop_step (fuel : Nat) (n c : Int) (hn : 1 ≤ n) (hne : n ≠ 1) :
    calculate_collatz_steps_exact_loop (fuel + 1) n c =
      calculate_collatz_steps_exact_loop fuel (collatz_T n) (c + 1) := by
  have hmod : Int.tmod n 2 = n % 2 := Int.tmod_eq_emod (by omega) (by decide)
  have hdiv : Int.tdiv n 2 = n / 2 := Int.tdiv_eq_ediv (by omega) (by decide)
  simp only [calculate_collatz_steps_exact_loop, if_neg hne, hmod, hdiv, collatz_T]
  split <;> rfl

theorem collatz_T_pos (n : Int) (hn : 1 ≤ n) : 1 ≤ collatz_T n := by
  unfold collatz_T
  split <;> omega

theorem exact_loop_spec :
    ∀ (k : Nat) (n c : Int) (fuel : Nat), 1 ≤ n → collatz_T^[k] n = 1 →
      (∀ j, j < k → collatz_T^[j] n ≠ 1) → k ≤ fuel →
      calculate_collatz_steps_exact_loop fuel n c = some (c + k) := by
  intro k
  induction k with
  | zero =>
    intro n c fuel _ h1 _ _
    have hn1 : n = 1 := h1
    cases fuel <;> simp [calculate_collatz_steps_exact_loop, hn1]
  | succ k ih =>
    intro n c fuel hn h1 hmin hfuel
    have hne : n ≠ 1 := hmin 0 (Nat.succ_pos k)
    cases fuel with
    | zero => omega
    | succ fuel =>
      rw [exact_loop_step fuel n c hn hne]
      rw [ih (collatz_T n) (c + 1) fuel (collatz_T_pos n hn)
        (by rw [← Function.iterate_succ_apply]; exact h1)
        (fun j hj => by
          rw [← Function.iterate_succ_apply]
          exact hmin (j + 1) (by omega))
        (by omega)]
      congr 1
      push_cast
      omega

/-- C15 (Collatz step count): for every `n >= 1` and every `k` that is the least number
of applications of the step `T` taking `n` to 1, `calculate_collatz_steps(n)` in exact
integer arithmetic returns `k` as soon as the loop is allowed `k` iterations. -/
theorem collatz_step_count (n : Int) (k fuel : Nat) (hn : 1 ≤ n)
    (hreach : collatz_T^[k] n = 1) (hleast : ∀ j, j < k → collatz_T^[j] n ≠ 1)
    (hfuel : k ≤ fuel) :
    calculate_collatz_steps_exact fuel n = some (k : Int) := by
  unfold calculate_collatz_steps_exact
  rw [exact_loop_spec k n 0 fuel hn hreach hleast hfuel]
  simp

set_option maxRecDepth 100000 in
/-- Witness for `collatz_step_count`, at the two inputs the claim names: the result is
0 for `n = 1` and 111 for `n = 27`. -/
theorem collatz_step_count_witness :
    (collatz_T^[0] 1 = 1 ∧ calculate_collatz_steps_exact 0 1 = some 0) ∧
      (collatz_T^[111] 27 = 1 ∧ (∀ j, j < 111 → collatz_T^[j] 27 ≠ 1) ∧
        calculate_collatz_steps_exact 111 27 = some 111) :=
  ⟨⟨rfl, collatz_step_count 1 0 0 (by decide) rfl (fun j hj => absurd hj (Nat.not_lt_zero j))
      (Nat.le_refl 0)⟩,
    ⟨by decide, by decide,
      collatz_step_count 27 111 111 (by decide) (by decide) (by decide) (Nat.le_refl 111)⟩⟩

theorem checked_loop_eq_exact :
    ∀ (fuel : Nat) (n c v : Int), calculate_collatz_steps_loop fuel n c = .ok v →
      calculate_collatz_steps_exact_loop fuel n c = some v := by
  intro fuel
  induction fuel with
  | zero =>
    intro n c v h
    simp only [calculate_collatz_steps_loop] at h
    simp only [calculate_collatz_steps_exact_loop]
    split at h
    · rename_i h1
      injection h with h
      rw [if_pos h1, h]
    · simp at h
  | succ fuel ih =>
    intro n c v h
    simp only [calculate_collatz_steps_loop] at h
    simp only [calculate_collatz_steps_exact_loop]
    split at h
    · rename_i h1
      injection h with h
      rw [if_pos h1, h]
    · rename_i h1
      rw [if_neg h1]
      split at h
      · rename_i h2
        rw [if_pos h2]
        split at h
        · exact ih _ _ _ h
        · simp at h
      · rename_i h2
        rw [if_neg h2]
        split at h
        · exact ih _ _ _ h
        · simp at h

theorem checked_eq_exact {fuel : Nat} {n v : Int}
    (h : calculate_collatz_steps fuel n = .ok v) :
    calculate_collatz_steps_exact fuel n = some v :=
  checked_loop_eq_exact fuel n 0 v h

set_option maxRecDepth 100000 in
/-- C17 (no overflow in the driver's range) fails at `n = 113383`, inside the range
`MIN_RANDOM_VALUE .. MAX_RANDOM_VALUE`.  In exact arithmetic the loop takes 247 steps
and the 120th step produces 2482111348, which exceeds `INT_MAX`; the `int` computation
of `3 * starting_number + 1` overflows there, whatever the number of iterations allowed
beyond 120. -/
theorem overflow_within_driver_range :
    MIN_RANDOM_VALUE ≤ 113383 ∧ 113383 ≤ MAX_RANDOM_VALUE ∧
      calculate_collatz_steps_exact 247 113383 = some 247 ∧
      collatz_T^[120] 113383 = 2482111348 ∧ INT_MAX < 2482111348 ∧
      ∀ m : Nat, calculate_collatz_steps (m + 120) 113383 = .error .overflow :=
  ⟨by decide, by decide, by rfl, by rfl, by decide, fun _ => rfl⟩

/-- C18 (the driver rejects a non-positive capacity) fails.  With six arguments, valid
`N`, `MIN`, `MAX` and the policy `LRU`, `main` passes every `CACHE_SIZE`, zero and
negative values included, to `create_cache`: no test of `cache_size` exists.  With
`CACHE_SIZE` 0 the cache then grows past its capacity: after the numbers 4 and 7 `size`
is 2 and `max_size` is 0. -/
theorem non_positive_capacity_accepted :
    (∀ cache_size : Int,
        main_setup 6 (some 10) (some 1) (some 100) (some "LRU") (some cache_size)
          = .ok (.LRU, create_cache cache_size)) ∧
      run_lookups 200 .LRU [(4, 0), (7, 0)] (create_cache 0) = .ok zero_capacity_two_entries ∧
      zero_capacity_two_entries.cache.size = 2 ∧
      zero_capacity_two_entries.cache.max_size = 0 :=
  ⟨fun _ => rfl, rfl, rfl, rfl⟩

set_option maxRecDepth 100000 in
/-- C19 (caching is transparent) fails under the random policy.  With capacity 2 the
driver processes 4 and 7; for the number 27, whose step count is 111,
`get_steps_with_cache` with draw 1 does not return 111: the eviction dereferences the
`NULL` `previous` link of the entry of key 7. -/
theorem transparent_caching_random_faults :
    run_lookups 200 .RR [(4, 0), (7, 0)] (create_cache 2) = .ok driver_two_entries ∧
      calculate_collatz_steps 200 27 = .ok 111 ∧
      get_steps_with_cache 200 driver_two_entries 27 (Policy.RR.eviction 1)
        = .error .null_deref :=
  ⟨rfl, rfl, rfl⟩

theorem contains_loop_found {s : State} (k : Int) (a : Nat) (Y : List Nat) (e : CacheEntry)
    (ha : s.heap[a]? = some (some e)) (hk : e.number = k) :
    ∀ (X : List Nat) (p q : Ptr) (fuel : Nat), Lseg s.heap p q (X ++ a :: Y) none →
      (∀ x ∈ X, ∀ ex, s.heap[x]? = some (some ex) → ex.number ≠ k) → X.length < fuel →
      cache_contains_loop s k fuel p =
        (cache_move_to_tail s (some a) >>= fun s1 =>
          load s1.heap (some a) >>= fun e1 => pure (e1.steps, s1)) := by
  intro X
  induction X with
  | nil =>
    intro p q fuel hs _ hlen
    obtain ⟨hp, _⟩ := hs
    subst hp
    cases fuel with
    | zero => simp at hlen
    | succ fuel =>
      simp only [cache_contains_loop, load_live ha, hk, if_true, bind, Except.bind]
  | cons x X ih =>
    intro p q fuel hs hne hlen
    obtain ⟨hp, ex, hx, _, hrest⟩ := hs
    subst hp
    cases fuel with
    | zero => simp at hlen
    | succ fuel =>
      have hxk : ¬ (ex.number = k) := hne x (by simp) ex hx
      simp only [cache_contains_loop, load_live hx, bind, Except.bind, if_neg hxk]
      exact ih _ _ fuel hrest (fun y hy => hne y (by simp [hy])) (by simpa using hlen)

theorem keys_inj_of_nodup (h : Heap) :
    ∀ l : List Nat, ((kv h l).map Prod.fst).Nodup → (∀ x ∈ l, ∃ e, h[x]? = some (some e)) →
      ∀ x ∈ l, ∀ y ∈ l, (data h x).map Prod.fst = (data h y).map Prod.fst → x ≠ y →
        False := by
  intro l
  induction l with
  | nil => intro _ _ x hx; simp at hx
  | cons a l ih =>
    intro hnd hlive x hx y hy hxy hne
    obtain ⟨e, he⟩ := hlive a (by simp)
    rw [kv_cons_live l he, List.map_cons, List.nodup_cons] at hnd
    have hmem : ∀ z ∈ l, (data h z).map Prod.fst = some e.number →
        e.number ∈ (kv h l).map Prod.fst := by
      intro z hz hzd
      obtain ⟨ez, hez⟩ := hlive z (by simp [hz])
      rw [data_live hez] at hzd
      simp at hzd
      refine List.mem_map.mpr ⟨(ez.number, ez.steps), ?_, hzd⟩
      exact List.mem_filterMap.mpr ⟨z, hz, data_live hez⟩
    rcases List.mem_cons.mp hx with hxa | hxl <;> rcases List.mem_cons.mp hy with hya | hyl
    · exact hne (hxa.trans hya.symm)
    · subst hxa
      rw [data_live he] at hxy
      exact hnd.1 (hmem y hyl hxy.symm)
    · subst hya
      rw [data_live he] at hxy
      exact hnd.1 (hmem x hxl hxy)
    · exact ih hnd.2 (fun z hz => hlive z (by simp [hz])) x hxl y hyl hxy hne

/-- What holds of C11 outside the defect: on a well-formed state with pairwise distinct
keys, whenever a `cache_contains` call returns, the same call repeated returns the same
value and leaves the state as the first call left it. -/
theorem lookup_idempotent_when_first_returns {s s1 : State} {l : List Nat} {k v : Int}
    (hwf : WF s l) (hnd : (keys s).Nodup) (hop : cache_contains s k = .ok (v, s1)) :
    cache_contains s1 k = .ok (v, s1) := by
  rcases contains_spec hwf hop with ⟨_, hs, _⟩ |
    ⟨pre, a, post, e, l1, hl, ha, hk, _, _, hv, hw1, hshape, htail, hd, _, _, _⟩
  · rw [hs]
    rw [hs] at hop
    exact hop
  · rw [keys_eq_kv hwf] at hnd
    have hlive := lseg_live l _ _ _ hwf.seg
    have hinj := keys_inj_of_nodup s.heap l hnd hlive
    have hal : a ∈ l := by simp [hl]
    have hane : ∀ x ∈ l, x ≠ a → ∀ ex, s1.heap[x]? = some (some ex) → ex.number ≠ k := by
      intro x hx hxa ex hex hexk
      apply hinj x hx a hal _ hxa
      rw [← hd x, data_live hex, data_live ha, hexk, hk]
      rfl
    obtain ⟨e1, ha1⟩ : ∃ e1, s1.heap[a]? = some (some e1) := by
      rcases hshape with h | h <;> exact lseg_live _ _ _ _ hw1.seg a (by simp [h])
    have hdata := hd a
    rw [data_live ha1, data_live ha] at hdata
    injection hdata with hdata
    injection hdata with hnum hst
    obtain ⟨X, hX, hXl, haX⟩ : ∃ X, l1 = X ++ [a] ∧ (∀ x ∈ X, x ∈ l) ∧ a ∉ X := by
      have hnd1 := hw1.nodup
      have hndl := hwf.nodup
      rw [hl] at hndl
      rcases hshape with h | h
      · refine ⟨pre ++ post, h, ?_, ?_⟩
        · intro x hx
          rw [hl]
          simp at hx ⊢
          tauto
        · rw [h, List.nodup_append] at hnd1
          intro hc
          exact hnd1.2.2 hc (by simp)
      · refine ⟨post, h, ?_, ?_⟩
        · intro x hx
          rw [hl]
          simp [hx]
        · rw [h, List.nodup_append] at hnd1
          intro hc
          exact hnd1.2.2 hc (by simp)
    have hseg := hw1.seg
    rw [hX] at hseg
    have hlen : X.length < s1.heap.length := by
      have := wf_length hw1
      rw [hX] at this
      simp at this
      omega
    unfold cache_contains
    rw [contains_loop_found k a [] e1 ha1 (hnum.trans hk) X _ _ _ hseg
      (fun x hx ex hex => hane x (hXl x hx) (fun hc => haX (hc ▸ hx)) ex hex) hlen]
    have hmv : cache_move_to_tail s1 (some a) = .ok s1 := by
      unfold cache_move_to_tail
      rw [if_pos htail]
    simp only [hmv, load_live ha1, bind, Except.bind, pure, Except.pure]
    rw [hv, hst]

theorem valInv_step {s : State} {r : Lookup} (fuel : Nat) (p : Policy) (n : Int) (rand : Nat)
    (hinv : ValInv fuel s) (hop : get_steps_with_cache fuel s n (p.eviction rand) = .ok r) :
    ValInv fuel r.state ∧ calculate_collatz_steps fuel n = .ok r.steps := by
  obtain ⟨l, hwf, hval⟩ := hinv
  unfold get_steps_with_cache at hop
  obtain ⟨⟨v, s1⟩, hc, hop1⟩ := bind_ok hop
  simp only [] at hop1
  have hmiss : ∀ (st : Int) (s2 : State), calculate_collatz_steps fuel n = .ok st →
      (∀ x ∈ l, ∀ d, data s1.heap x = some d → calculate_collatz_steps fuel d.1 = .ok d.2) →
      WF s1 l → cache_insert s1 n st (p.eviction rand) = .ok s2 → ValInv fuel s2 := by
    intro st s2 hcalc hval1 hwf1 hins
    have key : ∀ (sa : State) (la : List Nat), WF sa la → (∀ x ∈ la, x ∈ l) →
        (∀ x ∈ la, data sa.heap x = data s1.heap x) →
        cache_insert_link sa n st = .ok s2 → ValInv fuel s2 := by
      intro sa la hwa hsub hda hlink
      obtain ⟨s3, hs3, hw3, _, _, _, hnew, hd3⟩ := insert_link_wf n st hwa
      rw [hlink] at hs3
      injection hs3 with hs3
      subst hs3
      refine ⟨_, hw3, ?_⟩
      intro x hx d hdx
      rcases List.mem_append.mp hx with hx | hx
      · rw [hd3 x (lseg_lt hwa.seg x hx), hda x hx] at hdx
        exact hval1 x (hsub x hx) d hdx
      · simp at hx
        subst hx
        rw [data_live hnew] at hdx
        injection hdx with hdx
        rw [← hdx]
        exact hcalc
    unfold cache_insert at hins
    by_cases hfull : s1.cache.size = s1.cache.max_size
    · rw [if_pos hfull] at hins
      obtain ⟨sa, hev, hlink⟩ := bind_ok hins
      obtain ⟨la, hwa, hsubl, _, _, hda, _⟩ := evict_spec p rand hwf1 hev
      exact key sa la hwa (fun x hx => hsubl.subset hx) hda hlink
    · rw [if_neg hfull] at hins
      exact key s1 l hwf1 (fun x hx => hx) (fun _ _ => rfl) hins
  rcases contains_spec hwf hc with ⟨hv, hs, _⟩ |
    ⟨pre, a, post, e, l1, hl, ha, hk, _, _, hv, hw1, hshape, _, hd, _, _, _⟩
  · subst hs
    subst hv
    simp only [ne_eq, not_true_eq_false, ite_false] at hop1
    obtain ⟨st, hcalc, hop2⟩ := bind_ok hop1
    obtain ⟨s2, hins, hop3⟩ := bind_ok hop2
    simp [pure, Except.pure] at hop3
    subst hop3
    exact ⟨hmiss st s2 hcalc hval hwf hins, hcalc⟩
  · have hcalc : calculate_collatz_steps fuel n = .ok v := by
      have := hval a (by simp [hl]) (e.number, e.steps) (data_live ha)
      rw [hv, ← hk]
      exact this
    have hvne : v ≠ -1 := by
      have := collatz_steps_nonneg hcalc
      omega
    simp only [ne_eq, hvne, not_false_eq_true, ite_true, pure, Except.pure] at hop1
    injection hop1 with hop1
    subst hop1
    have hsub : ∀ x ∈ l1, x ∈ l := by
      intro x hx
      rw [hl]
      rcases hshape with h | h <;> rw [h] at hx <;> simp at hx ⊢ <;> tauto
    refine ⟨⟨l1, hw1, ?_⟩, hcalc⟩
    intro x hx d hdx
    rw [hd x] at hdx
    exact hval x (hsub x hx) d hdx

theorem valInv_run (fuel : Nat) (p : Policy) :
    ∀ (calls : List (Int × Nat)) (s s1 : State), ValInv fuel s →
      run_lookups fuel p calls s = .ok s1 → ValInv fuel s1 := by
  intro calls
  induction calls with
  | nil =>
    intro s s1 hinv hrun
    simp [run_lookups] at hrun
    subst hrun
    exact hinv
  | cons c calls ih =>
    intro s s1 hinv hrun
    simp only [run_lookups] at hrun
    cases hstep : get_steps_with_cache fuel s c.1 (p.eviction c.2) with
    | error f => simp [hstep] at hrun
    | ok r =>
      rw [hstep] at hrun
      exact ih r.state s1 (valInv_step fuel p c.1 c.2 hinv hstep).1 hrun

/-- What holds of C19 outside the defect: in every state the driver reaches, every
stored step count is the one `calculate_collatz_steps` returns for its number and is
never -1, and whenever a further `get_steps_with_cache` call returns, the value it
returns is the one `calculate_collatz_steps` returns. -/
theorem transparent_when_call_returns (fuel : Nat) (p : Policy) (max_size : Int)
    (calls : List (Int × Nat)) (s : State)
    (hrun : run_lookups fuel p calls (create_cache max_size) = .ok s) :
    (∀ e ∈ entries s, calculate_collatz_steps fuel e.number = .ok e.steps ∧ e.steps ≠ -1) ∧
      ∀ (n : Int) (rand : Nat) (r : Lookup),
        get_steps_with_cache fuel s n (p.eviction rand) = .ok r →
        calculate_collatz_steps fuel n = .ok r.steps := by
  have h0 : ValInv fuel (create_cache max_size) :=
    ⟨[], ⟨rfl, List.nodup_nil, fun t ht => by simp at ht⟩, fun x hx => by simp at hx⟩
  have hinv := valInv_run fuel p calls _ s h0 hrun
  refine ⟨?_, fun n rand r hop => (valInv_step fuel p n rand hinv hop).2⟩
  obtain ⟨l, hwf, hval⟩ := hinv
  intro e he
  have hmem : (e.number, e.steps) ∈ kv s.heap l := by
    rw [← entries_eq_kv hwf]
    exact List.mem_map.mpr ⟨e, he, rfl⟩
  obtain ⟨x, hx, hdx⟩ := List.mem_filterMap.mp hmem
  have hcalc := hval x hx _ hdx
  refine ⟨hcalc, ?_⟩
  have := collatz_steps_nonneg hcalc
  show e.steps ≠ -1
  omega

end Collatz
